import Mathlib

/-!
A verification development for `sync-repo.py`: a chain-based optimistic
synchronisation protocol that relays encrypted git bundles through a shared
blob store.  The Python source is shallowly embedded: pure fragments become
Lean functions, the effectful commands become functions from explicit
environments (inputs standing for the git/store/clock collaborators) to
outcome records, and Python exceptions become `Option`/error results.
Python integers are modelled as `Int`, Python strings as `String`
(compared code-point-lexicographically, as Python does).
-/

namespace SyncRepo

/-! ## Characters, digits and integer printing/parsing

`make_bundle_name` prints integers with `f"{n:04d}"`-style zero padding and
`extract_bundle_info` reparses them with Python's `int()`.  We model `int()`
on the grammar actually exercised by the program: an optional sign followed
by a nonempty run of decimal digits. -/

def digitChar (d : Nat) : Char := Char.ofNat (48 + d)

/-- Decimal digits, most significant first, with structural fuel (the fuel
is never exhausted when it exceeds the number). -/
def natToCharsF : Nat → Nat → List Char
  | 0, _ => []
  | fuel + 1, n =>
    if n < 10 then [digitChar n]
    else natToCharsF fuel (n / 10) ++ [digitChar (n % 10)]

/-- Decimal digits of `n`, most significant first (as `str(n)` for `n ≥ 0`). -/
def natToChars (n : Nat) : List Char := natToCharsF (n + 1) n

theorem natToCharsF_fuel_irrel : ∀ (fuel1 fuel2 n : Nat), n < fuel1 → n < fuel2 →
    natToCharsF fuel1 n = natToCharsF fuel2 n := by
  intro fuel1
  induction fuel1 with
  | zero =>
    intro fuel2 n h1 _
    omega
  | succ f1 ih =>
    intro fuel2 n h1 h2
    cases fuel2 with
    | zero => omega
    | succ f2 =>
      show (if n < 10 then [digitChar n] else natToCharsF f1 (n / 10) ++ [digitChar (n % 10)])
        = (if n < 10 then [digitChar n] else natToCharsF f2 (n / 10) ++ [digitChar (n % 10)])
      by_cases h : n < 10
      · rw [if_pos h, if_pos h]
      · rw [if_neg h, if_neg h]
        have hd : n / 10 < n := Nat.div_lt_self (by omega) (by omega)
        rw [ih f2 (n / 10) (by omega) (by omega)]

/-- The defining recurrence of `natToChars`. -/
theorem natToChars_eq (n : Nat) : natToChars n =
    if n < 10 then [digitChar n] else natToChars (n / 10) ++ [digitChar (n % 10)] := by
  show natToCharsF (n + 1) n = _
  show (if n < 10 then [digitChar n] else natToCharsF n (n / 10) ++ [digitChar (n % 10)]) = _
  by_cases h : n < 10
  · rw [if_pos h, if_pos h]
  · rw [if_neg h, if_neg h]
    have hd : n / 10 < n := Nat.div_lt_self (by omega) (by omega)
    rw [natToCharsF_fuel_irrel n (n / 10 + 1) (n / 10) (by omega) (by omega)]
    rfl

def isDigitCh (c : Char) : Bool := 48 ≤ c.toNat && c.toNat ≤ 57

def parseNatAux (acc : Nat) : List Char → Nat
  | [] => acc
  | c :: cs => parseNatAux (acc * 10 + (c.toNat - 48)) cs

/-- Parse a nonempty all-digit string as a natural number. -/
def parseNat (s : List Char) : Option Nat :=
  if s ≠ [] ∧ s.all isDigitCh then some (parseNatAux 0 s) else none

/-- Model of Python `int(str)` on sign-and-digits input. -/
def parseInt (s : List Char) : Option Int :=
  if s.head? = some '-' then (parseNat s.tail).map (fun n : Nat => -(n : Int))
  else if s.head? = some '+' then (parseNat s.tail).map (fun n : Nat => (n : Int))
  else (parseNat s).map (fun n : Nat => (n : Int))

/-- Left-pad with `'0'` to width `w` (Python `f"{n:0wd}"` on the digit part). -/
def padChars (w : Nat) (s : List Char) : List Char :=
  List.replicate (w - s.length) '0' ++ s

/-- `str(i)` for a Python integer. -/
def intToChars (i : Int) : List Char :=
  if i < 0 then '-' :: natToChars i.natAbs else natToChars i.toNat

/-- Python `f"{i:0wd}"`: total field width `w`, sign included. -/
def padInt (w : Nat) (i : Int) : List Char :=
  if i < 0 then '-' :: padChars (w - 1) (natToChars i.natAbs)
  else padChars w (natToChars i.toNat)

/-! ### Printing/parsing round-trip lemmas -/

theorem parseNatAux_append (acc : Nat) (xs ys : List Char) :
    parseNatAux acc (xs ++ ys) = parseNatAux (parseNatAux acc xs) ys := by
  induction xs generalizing acc with
  | nil => rfl
  | cons c cs ih =>
    rw [List.cons_append]
    show parseNatAux (acc * 10 + (c.toNat - 48)) (cs ++ ys) = _
    rw [ih]
    rfl

theorem digitChar_toNat (d : Nat) (h : d < 10) : (digitChar d).toNat = 48 + d := by
  interval_cases d <;> decide

theorem digitChar_isDigit (d : Nat) (h : d < 10) : isDigitCh (digitChar d) = true := by
  simp only [isDigitCh, digitChar_toNat d h, Bool.and_eq_true, decide_eq_true_eq]
  omega

theorem natToChars_ne_nil (n : Nat) : natToChars n ≠ [] := by
  rw [natToChars_eq]
  split <;> simp

theorem natToChars_digits (n : Nat) : (natToChars n).all isDigitCh = true := by
  induction n using Nat.strong_induction_on with
  | _ n ih =>
    rw [natToChars_eq]
    by_cases h : n < 10
    · rw [if_pos h]
      simp [digitChar_isDigit n h]
    · rw [if_neg h]
      rw [List.all_append]
      have h10 : n % 10 < 10 := Nat.mod_lt _ (by omega)
      rw [ih (n / 10) (Nat.div_lt_self (by omega) (by omega))]
      simp [digitChar_isDigit _ h10]

theorem parseNatAux_natToChars (acc n : Nat) :
    parseNatAux acc (natToChars n) = acc * 10 ^ (natToChars n).length + n := by
  induction n using Nat.strong_induction_on generalizing acc with
  | _ n ih =>
    by_cases h : n < 10
    · rw [natToChars_eq, if_pos h]
      show acc * 10 + ((digitChar n).toNat - 48) = _
      rw [digitChar_toNat n h, List.length_singleton]
      omega
    · rw [natToChars_eq, if_neg h]
      rw [parseNatAux_append, ih (n / 10) (Nat.div_lt_self (by omega) (by omega))]
      have h10 : n % 10 < 10 := Nat.mod_lt _ (by omega)
      show (acc * 10 ^ (natToChars (n / 10)).length + n / 10) * 10 +
          ((digitChar (n % 10)).toNat - 48) = _
      rw [digitChar_toNat _ h10, List.length_append, List.length_singleton, pow_succ]
      have h48 : 48 + n % 10 - 48 = n % 10 := by omega
      rw [h48]
      have hdm : n / 10 * 10 + n % 10 = n := by omega
      generalize (10 : Nat) ^ (natToChars (n / 10)).length = P
      have expand : (acc * P + n / 10) * 10 + n % 10
          = acc * (P * 10) + (n / 10 * 10 + n % 10) := by ring
      rw [expand, hdm]

theorem parseNat_natToChars (n : Nat) : parseNat (natToChars n) = some n := by
  unfold parseNat
  rw [if_pos ⟨natToChars_ne_nil n, natToChars_digits n⟩, parseNatAux_natToChars,
    Nat.zero_mul, Nat.zero_add]

theorem parseNat_pad (w : Nat) (n : Nat) : parseNat (padChars w (natToChars n)) = some n := by
  unfold parseNat padChars
  have hd : (List.replicate (w - (natToChars n).length) '0' ++ natToChars n).all isDigitCh = true := by
    rw [List.all_append, natToChars_digits, Bool.and_true, List.all_eq_true]
    intro c hc
    rw [List.eq_of_mem_replicate hc]
    decide
  rw [if_pos ⟨by simp [natToChars_ne_nil n], hd⟩]
  rw [parseNatAux_append]
  have hz : ∀ k, parseNatAux 0 (List.replicate k '0') = 0 := by
    intro k
    induction k with
    | zero => rfl
    | succ k ih =>
      rw [List.replicate_succ]
      exact ih
  rw [hz, parseNatAux_natToChars, Nat.zero_mul, Nat.zero_add]

theorem natToChars_no_dot (n : Nat) : '.' ∉ natToChars n := by
  have h := natToChars_digits n
  rw [List.all_eq_true] at h
  intro hmem
  have := h _ hmem
  simp [isDigitCh] at this

theorem padChars_no_dot (w n : Nat) : '.' ∉ padChars w (natToChars n) := by
  unfold padChars
  rw [List.mem_append]
  rintro (h | h)
  · have := List.eq_of_mem_replicate h
    simp at this
  · exact natToChars_no_dot n h

theorem padInt_no_dot (w : Nat) (i : Int) : '.' ∉ padInt w i := by
  unfold padInt
  split
  · rw [List.mem_cons]
    rintro (h | h)
    · simp at h
    · exact padChars_no_dot _ _ h
  · exact padChars_no_dot _ _

theorem intToChars_no_dot (i : Int) : '.' ∉ intToChars i := by
  unfold intToChars
  split
  · rw [List.mem_cons]
    rintro (h | h)
    · simp at h
    · exact natToChars_no_dot _ h
  · exact natToChars_no_dot _

theorem parseInt_of_digits (s : List Char) (hne : s ≠ []) (hdig : s.all isDigitCh = true) :
    parseInt s = (parseNat s).map (fun n : Nat => (n : Int)) := by
  rcases s with _ | ⟨c, cs⟩
  · exact absurd rfl hne
  · have hc : isDigitCh c = true := by
      rw [List.all_cons, Bool.and_eq_true] at hdig
      exact hdig.1
    have hc1 : (c :: cs).head? ≠ some '-' := by
      rw [List.head?_cons]
      intro hEq
      have hcEq : c = '-' := by injection hEq
      rw [hcEq] at hc; simp [isDigitCh] at hc
    have hc2 : (c :: cs).head? ≠ some '+' := by
      rw [List.head?_cons]
      intro hEq
      have hcEq : c = '+' := by injection hEq
      rw [hcEq] at hc; simp [isDigitCh] at hc
    unfold parseInt
    rw [if_neg hc1, if_neg hc2]

theorem parseInt_natToChars (n : Nat) : parseInt (natToChars n) = some (n : Int) := by
  rw [parseInt_of_digits _ (natToChars_ne_nil n) (natToChars_digits n), parseNat_natToChars]
  rfl

theorem parseInt_pad_nat (w n : Nat) : parseInt (padChars w (natToChars n)) = some (n : Int) := by
  have hdig : (padChars w (natToChars n)).all isDigitCh = true := by
    unfold padChars
    rw [List.all_append, natToChars_digits, Bool.and_true, List.all_eq_true]
    intro c hc
    rw [List.eq_of_mem_replicate hc]
    decide
  have hne : padChars w (natToChars n) ≠ [] := by
    simp [padChars, natToChars_ne_nil]
  rw [parseInt_of_digits _ hne hdig, parseNat_pad]
  rfl

theorem parseInt_padInt (w : Nat) (i : Int) : parseInt (padInt w i) = some i := by
  unfold padInt
  split
  · next hneg =>
    show parseInt ('-' :: padChars (w - 1) (natToChars i.natAbs)) = some i
    unfold parseInt
    simp only [List.head?_cons, List.tail_cons]
    rw [if_pos trivial]
    simp only [parseNat_pad, Option.map_some']
    congr 1
    omega
  · next hpos =>
    rw [parseInt_pad_nat]
    congr 1
    omega

theorem parseInt_intToChars (i : Int) : parseInt (intToChars i) = some i := by
  unfold intToChars
  split
  · next hneg =>
    show parseInt ('-' :: natToChars i.natAbs) = some i
    unfold parseInt
    simp only [List.head?_cons, List.tail_cons]
    rw [if_pos trivial]
    simp only [parseNat_natToChars, Option.map_some']
    congr 1
    omega
  · next hpos =>
    rw [parseInt_natToChars]
    congr 1
    omega

/-! ## Bundle names: `make_bundle_name` and `extract_bundle_info` -/

/-- Python `str.split(".")`. -/
def splitDot : List Char → List (List Char)
  | [] => [[]]
  | c :: cs =>
    if c = '.' then [] :: splitDot cs
    else
      match splitDot cs with
      | [] => [[c]]
      | p :: ps => (c :: p) :: ps

theorem splitDot_cons (c : Char) (cs : List Char) :
    splitDot (c :: cs) = if c = '.' then [] :: splitDot cs
      else match splitDot cs with
        | [] => [[c]]
        | p :: ps => (c :: p) :: ps := rfl

theorem splitDot_dot_cons (rest : List Char) :
    splitDot ('.' :: rest) = [] :: splitDot rest := rfl

theorem splitDot_append (p rest : List Char) (h : '.' ∉ p) :
    splitDot (p ++ '.' :: rest) = p :: splitDot rest := by
  induction p with
  | nil =>
    rw [List.nil_append, splitDot_dot_cons]
  | cons c cs ih =>
    have hc : c ≠ '.' := fun hEq => h (hEq ▸ List.mem_cons_self c cs)
    have hcs : '.' ∉ cs := fun hm => h (List.mem_cons_of_mem c hm)
    rw [List.cons_append, splitDot_cons, if_neg hc, ih hcs]

theorem splitDot_cons_single (c : Char) (rest : List Char) (h : c ≠ '.') :
    splitDot (c :: '.' :: rest) = [c] :: splitDot rest := by
  have := splitDot_append [c] rest (by simpa using h.symm)
  simpa using this

theorem splitDot_no_dot (p : List Char) (h : '.' ∉ p) : splitDot p = [p] := by
  induction p with
  | nil => rfl
  | cons c cs ih =>
    have hc : c ≠ '.' := fun hEq => h (hEq ▸ List.mem_cons_self c cs)
    have hcs : '.' ∉ cs := fun hm => h (List.mem_cons_of_mem c hm)
    rw [splitDot_cons, if_neg hc, ih hcs]

/-- The metadata tuple encoded in a bundle name (the `BundleInfo` dataclass).
The field order matters: it is the order used for comparisons. -/
structure BundleInfo where
  number : Int
  generation : Int
  instance_name : String
  instance_timestamp : Int
  is_final_gen : Bool
  rand : String
deriving DecidableEq, Repr

/-- `make_bundle_name` from the source.  The upload time (`time.time_ns() //
10**9`) and the random hex string (`secrets.token_hex(5)`) are impure inputs,
passed here explicitly.  Raising `RuntimeError` on a `'.'` in the instance
name is modelled by `none`. -/
def make_bundle_name (instance_name : String) (bundle_no : Int) (bundle_gen : Int)
    (final_gen : Bool) (timestamp : Int) (random_str : String) : Option String :=
  if '.' ∈ instance_name.data then none
  else
    some ⟨padInt 4 bundle_no ++ '.' ::
      ('_' :: '.' ::
      (padInt 3 bundle_gen ++ '.' ::
      ((if final_gen then 'f' else '_') :: '.' ::
      (instance_name.data ++ '.' ::
      (intToChars timestamp ++ '.' ::
      (random_str.data ++ '.' ::
      ['b', 'u', 'n', 'd', 'l', 'e']))))))⟩

/-- Core of `extract_bundle_info` on the name's character list: split on
`'.'`, take fields 0, 2, 3, 4, 5, 6.  A Python `IndexError`/`ValueError`
(missing field or failed `int()`) is modelled by `none`. -/
def extract_bundle_chars (s : List Char) : Option BundleInfo := do
  let parts := splitDot s
  let p0 ← parts[0]?
  let p2 ← parts[2]?
  let p3 ← parts[3]?
  let p4 ← parts[4]?
  let p5 ← parts[5]?
  let p6 ← parts[6]?
  let number ← parseInt p0
  let generation ← parseInt p2
  let instance_timestamp ← parseInt p5
  pure { number := number, generation := generation, instance_name := ⟨p4⟩,
         instance_timestamp := instance_timestamp,
         is_final_gen := p3 == ['f'], rand := ⟨p6⟩ }

/-- `extract_bundle_info` from the source. -/
def extract_bundle_info (bundle_name : String) : Option BundleInfo :=
  extract_bundle_chars bundle_name.data

/-- Characters allowed in an instance name (`[0-9a-zA-Z_]`, checked by the
CLI entry point). -/
def isWordChar (c : Char) : Bool :=
  ('0' ≤ c && c ≤ '9') || ('a' ≤ c && c ≤ 'z') || ('A' ≤ c && c ≤ 'Z') || c = '_'

theorem isWordChar_ne_dot (c : Char) (h : isWordChar c = true) : c ≠ '.' := by
  intro hEq
  rw [hEq] at h
  simp [isWordChar] at h

theorem extract_of_split (s : List Char) (p0 p1 p2 p3 p4 p5 p6 p7 : List Char)
    (hs : splitDot s = [p0, p1, p2, p3, p4, p5, p6, p7]) (n g t : Int)
    (hn : parseInt p0 = some n) (hg : parseInt p2 = some g) (ht : parseInt p5 = some t) :
    extract_bundle_chars s = some ⟨n, g, ⟨p4⟩, t, p3 == ['f'], ⟨p6⟩⟩ := by
  unfold extract_bundle_chars
  rw [hs]
  simp [hn, hg, ht]

/-- **C5.**  For every valid identifier (number ≥ 1, generation ≥ 1,
instance name matching `[A-Za-z0-9_]+`, nonce without the field separator):
`extract_bundle_info` applied to the name built by `make_bundle_name`
recovers the same number, generation, instance name, timestamp, final flag
and nonce; and `make_bundle_name` fails for every instance name containing
the field separator `'.'`. -/
theorem C5_encode_decode_inverse
    (inst nonce : String) (no gen ts : Int) (fin : Bool)
    (hno : 1 ≤ no) (hgen : 1 ≤ gen)
    (hinst_ne : inst.data ≠ []) (hinst : inst.data.all isWordChar = true)
    (hnonce : '.' ∉ nonce.data) :
    (∃ name, make_bundle_name inst no gen fin ts nonce = some name ∧
        extract_bundle_info name = some ⟨no, gen, inst, ts, fin, nonce⟩) ∧
    (∀ inst2 : String, '.' ∈ inst2.data →
        make_bundle_name inst2 no gen fin ts nonce = none) := by
  have hdot : '.' ∉ inst.data := by
    intro hm
    rw [List.all_eq_true] at hinst
    exact isWordChar_ne_dot _ (hinst _ hm) rfl
  constructor
  · refine ⟨⟨padInt 4 no ++ '.' ::
        ('_' :: '.' ::
        (padInt 3 gen ++ '.' ::
        ((if fin then 'f' else '_') :: '.' ::
        (inst.data ++ '.' ::
        (intToChars ts ++ '.' ::
        (nonce.data ++ '.' ::
        ['b', 'u', 'n', 'd', 'l', 'e']))))))⟩, ?_, ?_⟩
    · unfold make_bundle_name
      rw [if_neg hdot]
    · have hflag : (if fin then 'f' else '_') ≠ '.' := by cases fin <;> decide
      have hsplit : splitDot (padInt 4 no ++ '.' ::
          ('_' :: '.' ::
          (padInt 3 gen ++ '.' ::
          ((if fin then 'f' else '_') :: '.' ::
          (inst.data ++ '.' ::
          (intToChars ts ++ '.' ::
          (nonce.data ++ '.' ::
          ['b', 'u', 'n', 'd', 'l', 'e'])))))))
          = [padInt 4 no, ['_'], padInt 3 gen, [if fin then 'f' else '_'], inst.data,
             intToChars ts, nonce.data, ['b', 'u', 'n', 'd', 'l', 'e']] := by
        rw [splitDot_append _ _ (padInt_no_dot 4 no),
          splitDot_cons_single '_' _ (by decide),
          splitDot_append _ _ (padInt_no_dot 3 gen),
          splitDot_cons_single _ _ hflag,
          splitDot_append _ _ hdot,
          splitDot_append _ _ (intToChars_no_dot ts),
          splitDot_append _ _ hnonce,
          splitDot_no_dot _ (by decide)]
      show extract_bundle_chars _ = _
      rw [extract_of_split _ _ _ _ _ _ _ _ _ hsplit no gen ts
        (parseInt_padInt 4 no) (parseInt_padInt 3 gen) (parseInt_intToChars ts)]
      have hfin : (([if fin then 'f' else '_'] : List Char) == ['f']) = fin := by
        cases fin <;> decide
      rw [hfin]
  · intro inst2 hm
    unfold make_bundle_name
    rw [if_pos hm]

/-- Witness for C5 at a concrete identifier. -/
theorem C5_encode_decode_inverse_witness :
    (∃ name, make_bundle_name "dev" 1 1 true 5 "ab01f" = some name ∧
        extract_bundle_info name = some ⟨1, 1, "dev", 5, true, "ab01f"⟩) ∧
    (∀ inst2 : String, '.' ∈ inst2.data →
        make_bundle_name inst2 1 1 true 5 "ab01f" = none) :=
  C5_encode_decode_inverse "dev" "ab01f" 1 1 5 true (by decide) (by decide)
    (by decide) (by decide) (by decide)

/-! ## The chain builder: `fetch_bundle_chain`

`fetch_bundle_chain` lists the bucket, sorts the rows by
`(number, generation, uploadTimestamp, instance_name)` with Python's stable
`list.sort`, and walks the sorted rows keeping a processed-`(number,
generation)` set and the last completed position.  `List.mergeSort` is
stable with the same `le` semantics, so it models `list.sort` exactly. -/

/-- One row of the store listing: object name plus the store-assigned
upload timestamp. -/
structure FileEntry where
  fileName : String
  uploadTimestamp : Int
deriving DecidableEq, Repr

/-- A listed row paired with its decoded `BundleInfo`. -/
abbrev Entry := BundleInfo × FileEntry

def decodeEntry (f : FileEntry) : Option Entry :=
  (extract_bundle_info f.fileName).map (fun i => (i, f))

/-- `bundle_sort_key` from the source:
`(info.number, info.generation, fileinfo["uploadTimestamp"], info.instance_name)`. -/
def bundle_sort_key (e : Entry) : Int × Int × Int × String :=
  (e.1.number, e.1.generation, e.2.uploadTimestamp, e.1.instance_name)

/-- Python `<` on strings: lexicographic by code point, a proper prefix is
smaller. -/
def charsLT : List Char → List Char → Bool
  | _, [] => false
  | [], _ :: _ => true
  | c :: cs, d :: ds =>
    if c.toNat < d.toNat then true
    else if d.toNat < c.toNat then false
    else charsLT cs ds

/-- Python `<=` on strings. -/
def strLE (a b : String) : Bool := charsLT a.data b.data || a.data == b.data

/-- Python tuple `<=` on sort keys: lexicographic by component. -/
def keyLE (a b : Int × Int × Int × String) : Bool :=
  a.1 < b.1 || (a.1 == b.1 &&
    (a.2.1 < b.2.1 || (a.2.1 == b.2.1 &&
      (a.2.2.1 < b.2.2.1 || (a.2.2.1 == b.2.2.1 &&
        strLE a.2.2.2 b.2.2.2)))))

def entryLE (e1 e2 : Entry) : Bool := keyLE (bundle_sort_key e1) (bundle_sort_key e2)

/-- `entryLE` as a relation, for sorting. -/
def entryLEP (e1 e2 : Entry) : Prop := entryLE e1 e2 = true

instance : DecidableRel entryLEP := fun e1 e2 => instDecidableEqBool (entryLE e1 e2) true

/-- The filtering loop of `fetch_bundle_chain` over the sorted listing. -/
def chainWalk (done : Int) (processed : List (Int × Int)) : List Entry → List Entry
  | [] => []
  | e :: rest =>
    if (e.1.number, e.1.generation) ∈ processed then chainWalk done processed rest
    else if e.1.number ≤ done then chainWalk done processed rest
    else
      e :: chainWalk (if e.1.is_final_gen then e.1.number else done)
        ((e.1.number, e.1.generation) :: processed) rest

/-- `fetch_bundle_chain` from the source, as a function of the listing.
A listed name that `extract_bundle_info` cannot parse raises in Python
(`fetch_bundle_chain` has no handler for it), modelled by `none`.
Python's `list.sort` is a stable sort by `bundle_sort_key`;
`List.insertionSort entryLEP` is also stable for the same ordering, and a
stable sort's output is determined by the input order and the ordering, so
the two agree. -/
def fetch_bundle_chain (listing : List FileEntry) : Option (List String) :=
  (listing.mapM decodeEntry).map (fun entries =>
    (chainWalk (-1) [] (entries.insertionSort entryLEP)).map (fun e => e.2.fileName))

/-! ### Order properties of the sort key -/

theorem charToNat_inj (c d : Char) (h : c.toNat = d.toNat) : c = d :=
  Char.ext (UInt32.ext h)

theorem charsLT_cons (c d : Char) (cs ds : List Char) :
    charsLT (c :: cs) (d :: ds) = if c.toNat < d.toNat then true
      else if d.toNat < c.toNat then false else charsLT cs ds := rfl

theorem charsLT_nil_right (b : List Char) : charsLT b [] = false := by
  cases b <;> rfl

theorem charsLT_cons_iff (c d : Char) (cs ds : List Char) :
    charsLT (c :: cs) (d :: ds) = true ↔
      c.toNat < d.toNat ∨ (c.toNat = d.toNat ∧ charsLT cs ds = true) := by
  rw [charsLT_cons]
  by_cases h1 : c.toNat < d.toNat
  · simp [h1]
  · by_cases h2 : d.toNat < c.toNat
    · simp [h1, h2]
      omega
    · have hEq : c.toNat = d.toNat := by omega
      simp [h1, h2, hEq]

theorem charsLT_trans : ∀ a b c : List Char,
    charsLT a b = true → charsLT b c = true → charsLT a c = true := by
  intro a
  induction a with
  | nil =>
    intro b c h1 h2
    cases c with
    | nil => rw [charsLT_nil_right] at h2; cases h2
    | cons c1 cs => rfl
  | cons a1 as ih =>
    intro b c h1 h2
    cases b with
    | nil => rw [charsLT_nil_right] at h1; cases h1
    | cons b1 bs =>
      cases c with
      | nil => rw [charsLT_nil_right] at h2; cases h2
      | cons c1 cs =>
        rw [charsLT_cons_iff] at h1 h2 ⊢
        rcases h1 with h | ⟨he, h⟩ <;> rcases h2 with h' | ⟨he', h'⟩
        · left; omega
        · left; omega
        · left; omega
        · right; exact ⟨by omega, ih bs cs h h'⟩

theorem charsLT_asymm : ∀ a b : List Char,
    charsLT a b = true → charsLT b a = false := by
  intro a
  induction a with
  | nil =>
    intro b _
    exact charsLT_nil_right b
  | cons a1 as ih =>
    intro b h
    cases b with
    | nil => rw [charsLT_nil_right] at h; cases h
    | cons b1 bs =>
      rw [charsLT_cons_iff] at h
      rw [charsLT_cons]
      rcases h with h | ⟨he, h⟩
      · rw [if_neg (by omega), if_pos h]
      · rw [if_neg (by omega), if_neg (by omega)]
        exact ih bs h

theorem charsLT_connex : ∀ a b : List Char,
    charsLT a b = false → charsLT b a = false → a = b := by
  intro a
  induction a with
  | nil =>
    intro b h1 _
    cases b with
    | nil => rfl
    | cons b1 bs => cases h1
  | cons a1 as ih =>
    intro b h1 h2
    cases b with
    | nil => cases h2
    | cons b1 bs =>
      rw [charsLT_cons] at h1 h2
      by_cases hab : a1.toNat < b1.toNat
      · rw [if_pos hab] at h1; cases h1
      · by_cases hba : b1.toNat < a1.toNat
        · rw [if_pos hba] at h2; cases h2
        · rw [if_neg hab, if_neg hba] at h1
          rw [if_neg hba, if_neg hab] at h2
          rw [charToNat_inj a1 b1 (by omega), ih bs h1 h2]

theorem string_data_inj (a b : String) (h : a.data = b.data) : a = b := by
  rcases a with ⟨ad⟩
  rcases b with ⟨bd⟩
  simp only at h
  rw [h]

theorem strLE_total (a b : String) : strLE a b = true ∨ strLE b a = true := by
  unfold strLE
  cases h1 : charsLT a.data b.data with
  | true => left; rw [Bool.true_or]
  | false =>
    cases h2 : charsLT b.data a.data with
    | true => right; rw [Bool.true_or]
    | false =>
      left
      have hEq : a.data = b.data := charsLT_connex _ _ h1 h2
      rw [hEq]
      simp

theorem strLE_antisymm (a b : String) (h1 : strLE a b = true) (h2 : strLE b a = true) :
    a = b := by
  unfold strLE at h1 h2
  rw [Bool.or_eq_true] at h1 h2
  rcases h1 with h1 | h1
  · rcases h2 with h2 | h2
    · rw [charsLT_asymm _ _ h1] at h2; cases h2
    · exact (string_data_inj b a (by simpa using h2)).symm
  · exact string_data_inj a b (by simpa using h1)

theorem strLE_trans (a b c : String) (h1 : strLE a b = true) (h2 : strLE b c = true) :
    strLE a c = true := by
  unfold strLE at h1 h2 ⊢
  rw [Bool.or_eq_true] at h1 h2 ⊢
  rcases h1 with h1 | h1
  · rcases h2 with h2 | h2
    · exact Or.inl (charsLT_trans _ _ _ h1 h2)
    · have hbc : b.data = c.data := by simpa using h2
      exact Or.inl (hbc ▸ h1)
  · have hab : a.data = b.data := by simpa using h1
    rw [hab]
    exact h2

theorem keyLE_iff (a b : Int × Int × Int × String) :
    keyLE a b = true ↔
      a.1 < b.1 ∨ (a.1 = b.1 ∧ (a.2.1 < b.2.1 ∨ (a.2.1 = b.2.1 ∧
        (a.2.2.1 < b.2.2.1 ∨ (a.2.2.1 = b.2.2.1 ∧ strLE a.2.2.2 b.2.2.2 = true))))) := by
  simp [keyLE, Bool.or_eq_true, Bool.and_eq_true, decide_eq_true_eq, beq_iff_eq]

theorem keyLE_total (a b : Int × Int × Int × String) :
    keyLE a b = true ∨ keyLE b a = true := by
  rw [keyLE_iff, keyLE_iff]
  rcases lt_trichotomy a.1 b.1 with h1 | h1 | h1
  · exact Or.inl (Or.inl h1)
  · rcases lt_trichotomy a.2.1 b.2.1 with h2 | h2 | h2
    · exact Or.inl (Or.inr ⟨h1, Or.inl h2⟩)
    · rcases lt_trichotomy a.2.2.1 b.2.2.1 with h3 | h3 | h3
      · exact Or.inl (Or.inr ⟨h1, Or.inr ⟨h2, Or.inl h3⟩⟩)
      · rcases strLE_total a.2.2.2 b.2.2.2 with h4 | h4
        · exact Or.inl (Or.inr ⟨h1, Or.inr ⟨h2, Or.inr ⟨h3, h4⟩⟩⟩)
        · exact Or.inr (Or.inr ⟨h1.symm, Or.inr ⟨h2.symm, Or.inr ⟨h3.symm, h4⟩⟩⟩)
      · exact Or.inr (Or.inr ⟨h1.symm, Or.inr ⟨h2.symm, Or.inl h3⟩⟩)
    · exact Or.inr (Or.inr ⟨h1.symm, Or.inl h2⟩)
  · exact Or.inr (Or.inl h1)

theorem keyLE_trans (a b c : Int × Int × Int × String)
    (hab : keyLE a b = true) (hbc : keyLE b c = true) : keyLE a c = true := by
  rw [keyLE_iff] at hab hbc ⊢
  rcases hab with h1 | ⟨h1, hab⟩
  · rcases hbc with h1' | ⟨h1', _⟩
    · exact Or.inl (h1.trans h1')
    · exact Or.inl (h1' ▸ h1)
  · rcases hbc with h1' | ⟨h1', hbc⟩
    · exact Or.inl (h1 ▸ h1')
    · refine Or.inr ⟨h1.trans h1', ?_⟩
      rcases hab with h2 | ⟨h2, hab⟩
      · rcases hbc with h2' | ⟨h2', _⟩
        · exact Or.inl (h2.trans h2')
        · exact Or.inl (h2' ▸ h2)
      · rcases hbc with h2' | ⟨h2', hbc⟩
        · exact Or.inl (h2 ▸ h2')
        · refine Or.inr ⟨h2.trans h2', ?_⟩
          rcases hab with h3 | ⟨h3, hab⟩
          · rcases hbc with h3' | ⟨h3', _⟩
            · exact Or.inl (h3.trans h3')
            · exact Or.inl (h3' ▸ h3)
          · rcases hbc with h3' | ⟨h3', hbc⟩
            · exact Or.inl (h3 ▸ h3')
            · exact Or.inr ⟨h3.trans h3', strLE_trans _ _ _ hab hbc⟩

theorem keyLE_antisymm (a b : Int × Int × Int × String)
    (hab : keyLE a b = true) (hba : keyLE b a = true) : a = b := by
  rw [keyLE_iff] at hab hba
  rcases a with ⟨a1, a2, a3, a4⟩
  rcases b with ⟨b1, b2, b3, b4⟩
  simp only at hab hba
  rcases hab with h1 | ⟨h1, hab⟩
  · rcases hba with h1' | ⟨h1', _⟩
    · exact absurd (h1.trans h1') (lt_irrefl a1)
    · exact absurd (h1' ▸ h1) (lt_irrefl a1)
  · rcases hba with h1' | ⟨h1', hba⟩
    · exact absurd (h1 ▸ h1') (lt_irrefl b1)
    · rcases hab with h2 | ⟨h2, hab⟩
      · rcases hba with h2' | ⟨h2', _⟩
        · exact absurd (h2.trans h2') (lt_irrefl a2)
        · exact absurd (h2' ▸ h2) (lt_irrefl a2)
      · rcases hba with h2' | ⟨h2', hba⟩
        · exact absurd (h2 ▸ h2') (lt_irrefl b2)
        · rcases hab with h3 | ⟨h3, hab⟩
          · rcases hba with h3' | ⟨h3', _⟩
            · exact absurd (h3.trans h3') (lt_irrefl a3)
            · exact absurd (h3' ▸ h3) (lt_irrefl a3)
          · rcases hba with h3' | ⟨h3', hba⟩
            · exact absurd (h3 ▸ h3') (lt_irrefl b3)
            · rw [h1, h2, h3, strLE_antisymm _ _ hab hba]

theorem entryLE_total_or (e1 e2 : Entry) : (entryLE e1 e2 || entryLE e2 e1) = true := by
  rcases keyLE_total (bundle_sort_key e1) (bundle_sort_key e2) with h | h <;>
    simp [entryLE, h]

theorem entryLE_trans_true (a b c : Entry)
    (hab : entryLE a b = true) (hbc : entryLE b c = true) : entryLE a c = true :=
  keyLE_trans _ _ _ hab hbc

instance : IsTotal Entry entryLEP :=
  ⟨fun a b => keyLE_total (bundle_sort_key a) (bundle_sort_key b)⟩

instance : IsTrans Entry entryLEP :=
  ⟨fun a b c hab hbc => entryLE_trans_true a b c hab hbc⟩

/-! ### `mapM` over `Option` -/

theorem mapM_option_eq_none_iff {α β : Type} (f : α → Option β) (l : List α) :
    l.mapM f = none ↔ ∃ a ∈ l, f a = none := by
  induction l with
  | nil =>
    constructor
    · intro h; cases h
    · rintro ⟨x, hx, _⟩; cases hx
  | cons a l ih =>
    rw [List.mapM_cons]
    cases hfa : f a with
    | none =>
      constructor
      · intro _; exact ⟨a, List.mem_cons_self a l, hfa⟩
      · intro _; rfl
    | some b =>
      cases hl : l.mapM f with
      | none =>
        constructor
        · intro _
          obtain ⟨x, hx, hfx⟩ := ih.mp hl
          exact ⟨x, List.mem_cons_of_mem a hx, hfx⟩
        · intro _; rfl
      | some bs =>
        constructor
        · intro h; cases h
        · rintro ⟨x, hx, hfx⟩
          rcases List.mem_cons.mp hx with rfl | hx
          · rw [hfa] at hfx; cases hfx
          · have hcontra := ih.mpr ⟨x, hx, hfx⟩
            rw [hl] at hcontra; cases hcontra

theorem mapM_option_eq_some_map {α β : Type} (f : α → Option β) (g : α → β) (l : List α)
    (h : ∀ a ∈ l, f a = some (g a)) : l.mapM f = some (l.map g) := by
  induction l with
  | nil => rfl
  | cons a l ih =>
    rw [List.mapM_cons, h a (List.mem_cons_self a l),
      ih (fun x hx => h x (List.mem_cons_of_mem a hx))]
    rfl

theorem mapM_option_forall2 {α β : Type} (f : α → Option β) (l : List α) (es : List β)
    (h : l.mapM f = some es) : List.Forall₂ (fun a e => f a = some e) l es := by
  induction l generalizing es with
  | nil =>
    cases hes : es with
    | nil => exact List.Forall₂.nil
    | cons e es' =>
      rw [hes] at h
      cases h
  | cons a l ih =>
    rw [List.mapM_cons] at h
    cases hfa : f a with
    | none => rw [hfa] at h; cases h
    | some b =>
      rw [hfa] at h
      cases hl : l.mapM f with
      | none => rw [hl] at h; cases h
      | some bs =>
        rw [hl] at h
        have hes : es = b :: bs := by
          have : some (b :: bs) = some es := h
          exact (Option.some.injEq _ _ ▸ this.symm)
        subst hes
        exact List.Forall₂.cons hfa (ih bs hl)

theorem forall2_mem_right {α β : Type} {r : α → β → Prop} {l : List α} {es : List β}
    (h : List.Forall₂ r l es) (e : β) (he : e ∈ es) : ∃ a ∈ l, r a e := by
  induction h with
  | nil => cases he
  | cons hr _ ih =>
    rcases List.mem_cons.mp he with rfl | he'
    · exact ⟨_, List.mem_cons_self .., hr⟩
    · obtain ⟨x, hx, hrx⟩ := ih he'
      exact ⟨x, List.mem_cons_of_mem _ hx, hrx⟩

/-- Each successfully decoded entry carries its own row: its `BundleInfo`
re-decodes from its file name. -/
theorem decoded_entries_wf (listing : List FileEntry) (entries : List Entry)
    (h : listing.mapM decodeEntry = some entries) :
    ∀ e ∈ entries, extract_bundle_info e.2.fileName = some e.1 := by
  intro e he
  obtain ⟨a, _, hfa⟩ := forall2_mem_right (mapM_option_forall2 _ _ _ h) e he
  unfold decodeEntry at hfa
  cases hx : extract_bundle_info a.fileName with
  | none => rw [hx] at hfa; cases hfa
  | some i =>
    rw [hx] at hfa
    have : (i, a) = e := by
      have := Option.some.injEq ((i, a) : Entry) e ▸ hfa
      exact this
    rw [← this]
    exact hx

/-! ### C6: undecodable listed names -/

/-- **C6 counterexample.**  A listing holding an unrelated object name makes
`fetch_bundle_chain` fail outright (Python: the uncaught `ValueError` from
`int()` aborts the command); the undecodable name is *not* discarded. -/
theorem C6_counterexample :
    fetch_bundle_chain [⟨"garbage", 0⟩, ⟨"0001._.001.f.inst.10.r1.bundle", 1⟩] = none ∧
      extract_bundle_info "garbage" = none ∧
      fetch_bundle_chain [⟨"0001._.001.f.inst.10.r1.bundle", 1⟩]
        = some ["0001._.001.f.inst.10.r1.bundle"] := by
  decide

/-- **C6 (amended).**  `extract_bundle_info` fails on a name whose
dot-separated fields are missing or whose numeric fields do not parse, and
`fetch_bundle_chain` propagates that failure: it returns nothing (aborts)
exactly when some listed name is undecodable, instead of discarding such
names. -/
theorem C6_undecodable_name_aborts_chain (listing : List FileEntry) :
    fetch_bundle_chain listing = none ↔
      ∃ f ∈ listing, extract_bundle_info f.fileName = none := by
  unfold fetch_bundle_chain
  cases hm : listing.mapM decodeEntry with
  | none =>
    simp only [Option.map_none']
    constructor
    · intro _
      obtain ⟨a, ha, hfa⟩ := (mapM_option_eq_none_iff decodeEntry listing).mp hm
      refine ⟨a, ha, ?_⟩
      unfold decodeEntry at hfa
      cases hx : extract_bundle_info a.fileName with
      | none => rfl
      | some i => rw [hx] at hfa; cases hfa
    · intro _; trivial
  | some entries =>
    simp only [Option.map_some']
    constructor
    · intro h; cases h
    · rintro ⟨a, ha, hfa⟩
      have : listing.mapM decodeEntry = none := by
        refine (mapM_option_eq_none_iff decodeEntry listing).mpr ⟨a, ha, ?_⟩
        unfold decodeEntry
        rw [hfa]
        rfl
      rw [hm] at this
      cases this

/-! ### The canonical-chain walk on a listing with one final per position -/

/-- Occurrence count of an entry in a list (instance-independent). -/
def countEntry (a : Entry) : List Entry → Nat
  | [] => 0
  | b :: l => (if b = a then 1 else 0) + countEntry a l

theorem countEntry_perm (a : Entry) {l1 l2 : List Entry} (h : l1.Perm l2) :
    countEntry a l1 = countEntry a l2 := by
  induction h with
  | nil => rfl
  | cons x _ ih => simp [countEntry, ih]
  | swap x y l => simp [countEntry]; ring
  | trans _ _ ih1 ih2 => exact ih1.trans ih2

theorem countEntry_cons_of_ne (a b : Entry) (l : List Entry) (h : b ≠ a) :
    countEntry a (b :: l) = countEntry a l := by
  simp [countEntry, h]

theorem countEntry_cons_self (a : Entry) (l : List Entry) :
    countEntry a (a :: l) = 1 + countEntry a l := by
  simp [countEntry]

theorem countEntry_eq_zero (a : Entry) (l : List Entry) :
    countEntry a l = 0 ↔ a ∉ l := by
  induction l with
  | nil => simp [countEntry]
  | cons b l ih =>
    unfold countEntry
    by_cases hba : b = a
    · subst hba
      simp
    · simp [hba, ih, Ne.symm hba]

theorem chainWalk_cons (d : Int) (P : List (Int × Int)) (e : Entry) (rest : List Entry) :
    chainWalk d P (e :: rest) =
      if (e.1.number, e.1.generation) ∈ P then chainWalk d P rest
      else if e.1.number ≤ d then chainWalk d P rest
      else e :: chainWalk (if e.1.is_final_gen then e.1.number else d)
        ((e.1.number, e.1.generation) :: P) rest := rfl

/-- Walking a sorted listing that carries exactly one final generation at
each position in `(L, K]`, plus non-final leftovers that each sort strictly
after the final link of their position, yields exactly those final links in
position order.  `d` is the walk's completed-position state, `P` its
processed set. -/
theorem chainWalk_canonical (K : Int) (F : Int → Entry) (s : List Entry) :
    ∀ (d L : Int) (P : List (Int × Int)), d ≤ L →
      List.Sorted entryLEP s →
      (∀ p : Int, L < p → p ≤ K → F p ∈ s ∧ (F p).1.number = p ∧
          (F p).1.is_final_gen = true ∧ (p, (F p).1.generation) ∉ P ∧ countEntry (F p) s = 1) →
      (∀ e ∈ s, e.1.is_final_gen = true → ∃ p : Int, L < p ∧ p ≤ K ∧ e = F p) →
      (∀ e ∈ s, e.1.is_final_gen = false → e.1.number ≤ K ∧
          (d < e.1.number → L < e.1.number ∧
            keyLE (bundle_sort_key (F e.1.number)) (bundle_sort_key e) = true ∧
            bundle_sort_key (F e.1.number) ≠ bundle_sort_key e)) →
      chainWalk d P s = (List.range (K - L).toNat).map (fun i : Nat => F (L + 1 + (i : Int))) := by
  induction s with
  | nil =>
    intro d L P hdL hsort hF hfin hleft
    have hKL : ¬ L < K := by
      intro hLK
      obtain ⟨hmem, -⟩ := hF (L + 1) (by omega) (by omega)
      cases hmem
    have hz : (K - L).toNat = 0 := by omega
    rw [hz]
    rfl
  | cons e t ih =>
    intro d L P hdL hsort hF hfin hleft
    cases hfg : e.1.is_final_gen with
    | true =>
      obtain ⟨p, hLp, hpK, hep⟩ := hfin e (List.mem_cons_self e t) hfg
      have hnum_e : e.1.number = p := by rw [hep]; exact (hF p hLp hpK).2.1
      have hpL1 : p = L + 1 := by
        by_contra hne
        have hL1p : L + 1 < p := by omega
        obtain ⟨hmemF, hnumF, hfinF, hPF, hcntF⟩ := hF (L + 1) (by omega) (by omega)
        have hFne : F (L + 1) ≠ e := by
          intro hEq
          have h1 : (F (L + 1)).1.number = L + 1 := hnumF
          rw [hEq, hnum_e] at h1
          omega
        have hFt : F (L + 1) ∈ t := by
          rcases List.mem_cons.mp hmemF with h | h
          · exact absurd h hFne
          · exact h
        have hle : keyLE (bundle_sort_key e) (bundle_sort_key (F (L + 1))) = true :=
          List.rel_of_sorted_cons hsort _ hFt
        rw [keyLE_iff] at hle
        simp only [bundle_sort_key] at hle
        rcases hle with h | ⟨h, -⟩ <;> omega
      subst hpL1
      obtain ⟨hmemF, hnumF, hfinF, hPF, hcntF⟩ := hF (L + 1) (by omega) hpK
      have hnotP : (e.1.number, e.1.generation) ∉ P := by
        rw [hep, hnumF]
        exact hPF
      have hnotLe : ¬ e.1.number ≤ d := by omega
      rw [chainWalk_cons, if_neg hnotP, if_neg hnotLe, hfg, if_pos rfl, hnum_e]
      have hnotmem_e : e ∉ t := by
        have hc : countEntry e (e :: t) = 1 := by
          have hcc := hcntF
          rw [← hep] at hcc
          exact hcc
        rw [countEntry_cons_self] at hc
        have hc0 : countEntry e t = 0 := by omega
        exact (countEntry_eq_zero e t).mp hc0
      have hrec := ih (L + 1) (L + 1) (((L + 1 : Int), e.1.generation) :: P) le_rfl
        hsort.of_cons
        (fun q hLq hqK => by
          obtain ⟨hqmem, hqnum, hqfin, hqP, hqcnt⟩ := hF q (by omega) hqK
          have hqne : F q ≠ e := by
            intro hEq
            have h1 : (F q).1.number = q := hqnum
            rw [hEq, hnum_e] at h1
            omega
          refine ⟨?_, hqnum, hqfin, ?_, ?_⟩
          · rcases List.mem_cons.mp hqmem with h | h
            · exact absurd h hqne
            · exact h
          · intro hmemP
            rcases List.mem_cons.mp hmemP with h | h
            · have hq1 : q = L + 1 := congrArg Prod.fst h
              omega
            · exact hqP h
          · rw [countEntry_cons_of_ne _ _ _ (Ne.symm hqne)] at hqcnt
            exact hqcnt)
        (fun e' he' hfin' => by
          obtain ⟨q, hLq, hqK, heq⟩ := hfin e' (List.mem_cons_of_mem e he') hfin'
          refine ⟨q, ?_, hqK, heq⟩
          by_contra hqle
          have hq : q = L + 1 := by omega
          rw [hq] at heq
          rw [← hep] at heq
          rw [heq] at he'
          exact hnotmem_e he')
        (fun e' he' hnf => by
          obtain ⟨hK', hstrict⟩ := hleft e' (List.mem_cons_of_mem e he') hnf
          refine ⟨hK', fun hgt => ?_⟩
          exact ⟨hgt, (hstrict (by omega)).2⟩)
      rw [hrec]
      have hKL1 : (K - L).toNat = (K - (L + 1)).toNat + 1 := by omega
      rw [hKL1, List.range_succ_eq_map, List.map_cons, List.map_map]
      congr 1
      · rw [hep]
        congr 1
        simp
      · refine List.map_congr_left (fun i hi => ?_)
        show F (L + 1 + 1 + (i : Int)) = F (L + 1 + ((i + 1 : Nat) : Int))
        congr 1
        push_cast
        ring
    | false =>
      obtain ⟨hnK, hstrict⟩ := hleft e (List.mem_cons_self e t) hfg
      have hnd : e.1.number ≤ d := by
        by_contra hgt
        push_neg at hgt
        obtain ⟨hLn, hkey, hkeyne⟩ := hstrict hgt
        obtain ⟨hmemF, hnumF, hfinF, -, -⟩ := hF e.1.number hLn hnK
        have hFne : F e.1.number ≠ e := by
          intro hEq
          rw [hEq, hfg] at hfinF
          cases hfinF
        have hFt : F e.1.number ∈ t := by
          rcases List.mem_cons.mp hmemF with h | h
          · exact absurd h hFne
          · exact h
        have hle : keyLE (bundle_sort_key e) (bundle_sort_key (F e.1.number)) = true :=
          List.rel_of_sorted_cons hsort _ hFt
        exact hkeyne (keyLE_antisymm _ _ hkey hle)
      have hF' : ∀ p : Int, L < p → p ≤ K → F p ∈ t ∧ (F p).1.number = p ∧
          (F p).1.is_final_gen = true ∧ (p, (F p).1.generation) ∉ P ∧ countEntry (F p) t = 1 := by
        intro q hLq hqK
        obtain ⟨hqmem, hqnum, hqfin, hqP, hqcnt⟩ := hF q hLq hqK
        have hqne : F q ≠ e := by
          intro hEq
          rw [hEq, hfg] at hqfin
          cases hqfin
        refine ⟨?_, hqnum, hqfin, hqP, ?_⟩
        · rcases List.mem_cons.mp hqmem with h | h
          · exact absurd h hqne
          · exact h
        · rw [countEntry_cons_of_ne _ _ _ (Ne.symm hqne)] at hqcnt
          exact hqcnt
      have hfin' : ∀ e' ∈ t, e'.1.is_final_gen = true →
          ∃ p : Int, L < p ∧ p ≤ K ∧ e' = F p :=
        fun e' he' h => hfin e' (List.mem_cons_of_mem e he') h
      have hleft' : ∀ e' ∈ t, e'.1.is_final_gen = false → e'.1.number ≤ K ∧
          (d < e'.1.number → L < e'.1.number ∧
            keyLE (bundle_sort_key (F e'.1.number)) (bundle_sort_key e') = true ∧
            bundle_sort_key (F e'.1.number) ≠ bundle_sort_key e') :=
        fun e' he' h => hleft e' (List.mem_cons_of_mem e he') h
      rw [chainWalk_cons]
      by_cases hmem : (e.1.number, e.1.generation) ∈ P
      · rw [if_pos hmem]
        exact ih d L P hdL hsort.of_cons hF' hfin' hleft'
      · rw [if_neg hmem, if_pos hnd]
        exact ih d L P hdL hsort.of_cons hF' hfin' hleft'

/-! ### C1: chain shape for one-final-per-position listings -/

/-- **C1 counterexample.**  A listing with K = 1: exactly one final
generation at position 1 (generation 2) and one non-final leftover at
position 1 (generation 1).  The claim says the chain is exactly the final
link; the code also keeps the leftover, because the leftover's lower
generation sorts before the final link and `bundle_number_done` is only
advanced when the final link itself is reached. -/
theorem C1_counterexample :
    extract_bundle_info "0001._.001._.inst.10.r1.bundle"
        = some ⟨1, 1, "inst", 10, false, "r1"⟩ ∧
      extract_bundle_info "0001._.002.f.inst.11.r2.bundle"
        = some ⟨1, 2, "inst", 11, true, "r2"⟩ ∧
      fetch_bundle_chain [⟨"0001._.001._.inst.10.r1.bundle", 1⟩,
          ⟨"0001._.002.f.inst.11.r2.bundle", 2⟩]
        = some ["0001._.001._.inst.10.r1.bundle", "0001._.002.f.inst.11.r2.bundle"] ∧
      fetch_bundle_chain [⟨"0001._.001._.inst.10.r1.bundle", 1⟩,
          ⟨"0001._.002.f.inst.11.r2.bundle", 2⟩]
        ≠ some ["0001._.002.f.inst.11.r2.bundle"] := by
  decide

/-- **C1 (amended).**  For a listing whose decoded entries carry exactly one
final generation `F p` at each position `p ∈ [1, K]`, plus arbitrary
non-final leftovers at positions `≤ K` *each of which sorts strictly after
the final link of its position* (the situation the conflict-race leaves
behind), `fetch_bundle_chain` returns exactly those K final links in
position order.  Without the strictly-after condition the chain also keeps
the leftover (see the counterexample). -/
theorem C1_canonical_chain (listing : List FileEntry) (entries : List Entry)
    (K : Int) (F : Int → Entry)
    (hdec : listing.mapM decodeEntry = some entries)
    (hF : ∀ p : Int, 0 < p → p ≤ K → F p ∈ entries ∧ (F p).1.number = p ∧
        (F p).1.is_final_gen = true ∧ countEntry (F p) entries = 1)
    (hfinals : ∀ e ∈ entries, e.1.is_final_gen = true →
        ∃ p : Int, 0 < p ∧ p ≤ K ∧ e = F p)
    (hleft : ∀ e ∈ entries, e.1.is_final_gen = false → 0 < e.1.number ∧ e.1.number ≤ K ∧
        keyLE (bundle_sort_key (F e.1.number)) (bundle_sort_key e) = true ∧
        bundle_sort_key (F e.1.number) ≠ bundle_sort_key e) :
    fetch_bundle_chain listing
      = some ((List.range K.toNat).map (fun i : Nat => (F (1 + (i : Int))).2.fileName)) := by
  unfold fetch_bundle_chain
  rw [hdec]
  simp only [Option.map_some']
  congr 1
  have hperm : (entries.insertionSort entryLEP).Perm entries :=
    List.perm_insertionSort _ _
  have hwalk := chainWalk_canonical K F (entries.insertionSort entryLEP) (-1) 0 []
    (by omega)
    (List.sorted_insertionSort _ _)
    (fun p h0p hpK => by
      obtain ⟨hmem, hnum, hfin, hcnt⟩ := hF p h0p hpK
      refine ⟨hperm.mem_iff.mpr hmem, hnum, hfin, List.not_mem_nil _, ?_⟩
      exact (countEntry_perm (F p) hperm).trans hcnt)
    (fun e he hfin => hfinals e (hperm.mem_iff.mp he) hfin)
    (fun e he hnf => by
      obtain ⟨h0, hK, hkey, hne⟩ := hleft e (hperm.mem_iff.mp he) hnf
      exact ⟨hK, fun _ => ⟨h0, hkey, hne⟩⟩)
  rw [hwalk, List.map_map]
  have hK0 : K - 0 = K := by ring
  rw [hK0]
  refine List.map_congr_left (fun i hi => ?_)
  show (F (0 + 1 + (i : Int))).2.fileName = (F (1 + (i : Int))).2.fileName
  norm_num

/-- Witness for C1 (amended): a one-link listing (K = 1). -/
theorem C1_canonical_chain_witness :
    fetch_bundle_chain [⟨"0001._.001.f.a.10.r1.bundle", 1⟩]
      = some ["0001._.001.f.a.10.r1.bundle"] := by
  have h := C1_canonical_chain [⟨"0001._.001.f.a.10.r1.bundle", 1⟩]
    [((⟨1, 1, "a", 10, true, "r1"⟩ : BundleInfo),
      (⟨"0001._.001.f.a.10.r1.bundle", 1⟩ : FileEntry))]
    1
    (fun _ => ((⟨1, 1, "a", 10, true, "r1"⟩ : BundleInfo),
      (⟨"0001._.001.f.a.10.r1.bundle", 1⟩ : FileEntry)))
    (by decide)
    (fun p hp1 hp2 => by
      have hp : p = 1 := by omega
      subst hp
      exact ⟨by decide, by decide, by decide, by decide⟩)
    (fun e he hfin => ⟨1, by omega, by omega, by
      rcases List.mem_singleton.mp he with rfl
      rfl⟩)
    (fun e he hnf => by
      rcases List.mem_singleton.mp he with rfl
      exact absurd hnf (by decide))
  rw [h]
  decide

/-! ### C10: dependence on the listing's enumeration order -/

/-- **C10 counterexample.**  Two rows tie on the whole sort key
`(number, generation, uploadTimestamp, instance_name)` (they differ only in
the nonce).  The stable sort keeps them in listing order, the walk keeps
the first and drops the second as a processed duplicate, so permuting the
listing changes the canonical chain. -/
theorem C10_counterexample :
    ([⟨"0001._.001._.aa.5.r1.bundle", 7⟩, ⟨"0001._.001._.aa.5.r2.bundle", 7⟩]
        : List FileEntry).Perm
      [⟨"0001._.001._.aa.5.r2.bundle", 7⟩, ⟨"0001._.001._.aa.5.r1.bundle", 7⟩] ∧
    fetch_bundle_chain [⟨"0001._.001._.aa.5.r1.bundle", 7⟩,
        ⟨"0001._.001._.aa.5.r2.bundle", 7⟩]
      = some ["0001._.001._.aa.5.r1.bundle"] ∧
    fetch_bundle_chain [⟨"0001._.001._.aa.5.r2.bundle", 7⟩,
        ⟨"0001._.001._.aa.5.r1.bundle", 7⟩]
      = some ["0001._.001._.aa.5.r2.bundle"] := by
  refine ⟨List.Perm.swap _ _ _, by decide, by decide⟩

/-- A decoded entry, with a junk default (only used where decoding
succeeds). -/
def decodeEntryD (f : FileEntry) : Entry :=
  ((extract_bundle_info f.fileName).getD ⟨0, 0, "", 0, false, ""⟩, f)

theorem decodeEntry_eq_some_decodeEntryD (f : FileEntry)
    (h : extract_bundle_info f.fileName ≠ none) :
    decodeEntry f = some (decodeEntryD f) := by
  unfold decodeEntry decodeEntryD
  cases hx : extract_bundle_info f.fileName with
  | none => exact absurd hx h
  | some i => simp [hx]

theorem filterMap_eq_map_of_some {α β : Type} (f' : α → Option β) (h' : α → β)
    (l : List α) (h : ∀ a ∈ l, f' a = some (h' a)) : l.filterMap f' = l.map h' := by
  induction l with
  | nil => rfl
  | cons a l ih =>
    rw [List.filterMap_cons, h a (List.mem_cons_self a l), List.map_cons,
      ih (fun x hx => h x (List.mem_cons_of_mem a hx))]

/-- Two sorted permutations of each other whose sort keys are pairwise
distinct are equal. -/
theorem eq_of_perm_sorted_nodup_keys (s1 : List Entry) :
    ∀ s2 : List Entry, s1.Perm s2 → s1.Sorted entryLEP → s2.Sorted entryLEP →
      (s1.map bundle_sort_key).Nodup → s1 = s2 := by
  induction s1 with
  | nil =>
    intro s2 hperm _ _ _
    exact hperm.nil_eq
  | cons a t1 ih =>
    intro s2 hperm hs1 hs2 hnd
    cases s2 with
    | nil => exact absurd hperm.symm (by simp)
    | cons b t2 =>
      by_cases hab : a = b
      · subst hab
        have ht : t1.Perm t2 := hperm.cons_inv
        rw [List.map_cons, List.nodup_cons] at hnd
        rw [ih t2 ht hs1.of_cons hs2.of_cons hnd.2]
      · exfalso
        have hbmem : b ∈ a :: t1 := hperm.mem_iff.mpr (List.mem_cons_self b t2)
        have hbt1 : b ∈ t1 := by
          rcases List.mem_cons.mp hbmem with h | h
          · exact absurd h.symm hab
          · exact h
        have hamem : a ∈ b :: t2 := hperm.mem_iff.mp (List.mem_cons_self a t1)
        have hat2 : a ∈ t2 := by
          rcases List.mem_cons.mp hamem with h | h
          · exact absurd h hab
          · exact h
        have h1 : entryLEP a b := List.rel_of_sorted_cons hs1 _ hbt1
        have h2 : entryLEP b a := List.rel_of_sorted_cons hs2 _ hat2
        have hkey : bundle_sort_key a = bundle_sort_key b := keyLE_antisymm _ _ h1 h2
        rw [List.map_cons, List.nodup_cons] at hnd
        exact hnd.1 (hkey ▸ List.mem_map_of_mem bundle_sort_key hbt1)

/-- **C10 (amended).**  Whenever no two listed rows share the whole sort key
`(number, generation, uploadTimestamp, instanceId)` — in particular in every
listing where full-key ties are impossible — `fetch_bundle_chain` is a
function of the listing as a multiset: permuting the listing does not change
the canonical chain.  When two rows tie on the whole key the stable sort
preserves listing order and the result does depend on it (see the
counterexample). -/
theorem C10_chain_listing_order_independent (l1 l2 : List FileEntry)
    (hperm : l1.Perm l2)
    (hkeys : (l1.filterMap (fun f => (decodeEntry f).map bundle_sort_key)).Nodup) :
    fetch_bundle_chain l1 = fetch_bundle_chain l2 := by
  by_cases hbad : ∃ f ∈ l1, extract_bundle_info f.fileName = none
  · have h1 : fetch_bundle_chain l1 = none :=
      (C6_undecodable_name_aborts_chain l1).mpr hbad
    obtain ⟨f, hf, hfn⟩ := hbad
    have h2 : fetch_bundle_chain l2 = none :=
      (C6_undecodable_name_aborts_chain l2).mpr ⟨f, hperm.mem_iff.mp hf, hfn⟩
    rw [h1, h2]
  · push_neg at hbad
    have hgood1 : ∀ f ∈ l1, decodeEntry f = some (decodeEntryD f) :=
      fun f hf => decodeEntry_eq_some_decodeEntryD f (hbad f hf)
    have hgood2 : ∀ f ∈ l2, decodeEntry f = some (decodeEntryD f) :=
      fun f hf => decodeEntry_eq_some_decodeEntryD f (hbad f (hperm.mem_iff.mpr hf))
    have hm1 : l1.mapM decodeEntry = some (l1.map decodeEntryD) :=
      mapM_option_eq_some_map _ _ _ hgood1
    have hm2 : l2.mapM decodeEntry = some (l2.map decodeEntryD) :=
      mapM_option_eq_some_map _ _ _ hgood2
    have hkeys' : ((l1.map decodeEntryD).map bundle_sort_key).Nodup := by
      have hfm : l1.filterMap (fun f => (decodeEntry f).map bundle_sort_key)
          = l1.map (fun f => bundle_sort_key (decodeEntryD f)) := by
        refine filterMap_eq_map_of_some _ _ _ (fun f hf => ?_)
        rw [hgood1 f hf]
        rfl
      rw [hfm] at hkeys
      rw [List.map_map]
      exact hkeys
    have hsortperm : ((l1.map decodeEntryD).insertionSort entryLEP).Perm
        ((l2.map decodeEntryD).insertionSort entryLEP) :=
      (List.perm_insertionSort _ _).trans
        ((hperm.map decodeEntryD).trans (List.perm_insertionSort _ _).symm)
    have hnd : (((l1.map decodeEntryD).insertionSort entryLEP).map bundle_sort_key).Nodup :=
      (((List.perm_insertionSort entryLEP (l1.map decodeEntryD))).map
        bundle_sort_key).nodup_iff.mpr hkeys'
    have hss : (l1.map decodeEntryD).insertionSort entryLEP
        = (l2.map decodeEntryD).insertionSort entryLEP :=
      eq_of_perm_sorted_nodup_keys _ _ hsortperm
        (List.sorted_insertionSort _ _) (List.sorted_insertionSort _ _) hnd
    unfold fetch_bundle_chain
    rw [hm1, hm2]
    simp only [Option.map_some']
    rw [hss]

/-! ### Structural facts about the chain: subsequence, no duplicate
`(number, generation)`, strictly ascending -/

theorem chainWalk_sublist (s : List Entry) : ∀ (d : Int) (P : List (Int × Int)),
    List.Sublist (chainWalk d P s) s := by
  induction s with
  | nil =>
    intro d P
    exact List.Sublist.refl []
  | cons e t ih =>
    intro d P
    rw [chainWalk_cons]
    by_cases h1 : (e.1.number, e.1.generation) ∈ P
    · rw [if_pos h1]
      exact (ih d P).cons e
    · rw [if_neg h1]
      by_cases h2 : e.1.number ≤ d
      · rw [if_pos h2]
        exact (ih d P).cons e
      · rw [if_neg h2]
        exact (ih _ _).cons₂ e

theorem chainWalk_notin_P (s : List Entry) : ∀ (d : Int) (P : List (Int × Int)) (e : Entry),
    e ∈ chainWalk d P s → (e.1.number, e.1.generation) ∉ P := by
  induction s with
  | nil =>
    intro d P e h
    cases h
  | cons a t ih =>
    intro d P e h
    rw [chainWalk_cons] at h
    by_cases h1 : (a.1.number, a.1.generation) ∈ P
    · rw [if_pos h1] at h
      exact ih d P e h
    · rw [if_neg h1] at h
      by_cases h2 : a.1.number ≤ d
      · rw [if_pos h2] at h
        exact ih d P e h
      · rw [if_neg h2] at h
        rcases List.mem_cons.mp h with rfl | h
        · exact h1
        · have hIn := ih _ _ e h
          intro hmem
          exact hIn (List.mem_cons_of_mem _ hmem)

theorem chainWalk_pairwise_ne (s : List Entry) : ∀ (d : Int) (P : List (Int × Int)),
    (chainWalk d P s).Pairwise
      (fun a b => (a.1.number, a.1.generation) ≠ (b.1.number, b.1.generation)) := by
  induction s with
  | nil =>
    intro d P
    exact List.Pairwise.nil
  | cons a t ih =>
    intro d P
    rw [chainWalk_cons]
    by_cases h1 : (a.1.number, a.1.generation) ∈ P
    · rw [if_pos h1]
      exact ih d P
    · rw [if_neg h1]
      by_cases h2 : a.1.number ≤ d
      · rw [if_pos h2]
        exact ih d P
      · rw [if_neg h2]
        refine List.Pairwise.cons (fun b hb => ?_) (ih _ _)
        have hInP := chainWalk_notin_P t _ _ b hb
        intro hEq
        exact hInP (hEq ▸ List.mem_cons_self ..)

/-- Python tuple `<=` on `(number, generation)` pairs (used by `command_pull`
to skip already-known links). -/
def pairLE (a b : Int × Int) : Bool := a.1 < b.1 || (a.1 == b.1 && a.2 ≤ b.2)

theorem pairLE_iff (a b : Int × Int) :
    pairLE a b = true ↔ a.1 < b.1 ∨ (a.1 = b.1 ∧ a.2 ≤ b.2) := by
  simp [pairLE, Bool.or_eq_true, Bool.and_eq_true, decide_eq_true_eq, beq_iff_eq]

/-- Strict lexicographic `<` on `(number, generation)` pairs. -/
def pairLT (a b : Int × Int) : Prop := a.1 < b.1 ∨ (a.1 = b.1 ∧ a.2 < b.2)

theorem pairLT_irrefl (a : Int × Int) : ¬ pairLT a a := by
  unfold pairLT
  omega

theorem pairLT_trans {a b c : Int × Int} (h1 : pairLT a b) (h2 : pairLT b c) : pairLT a c := by
  unfold pairLT at h1 h2 ⊢
  omega

theorem pairLE_of_pairLT {a b : Int × Int} (h : pairLT a b) : pairLE a b = true := by
  rw [pairLE_iff]
  unfold pairLT at h
  omega

theorem not_pairLE_of_pairLT {a b : Int × Int} (h : pairLT a b) : pairLE b a = false := by
  rw [← Bool.not_eq_true, pairLE_iff]
  unfold pairLT at h
  omega

/-- Each name on the canonical chain decodes. -/
theorem fetch_chain_wf (listing : List FileEntry) (names : List String)
    (h : fetch_bundle_chain listing = some names) :
    ∀ n ∈ names, ∃ i, extract_bundle_info n = some i := by
  unfold fetch_bundle_chain at h
  cases hm : listing.mapM decodeEntry with
  | none =>
    rw [hm] at h
    cases h
  | some entries =>
    rw [hm] at h
    simp only [Option.map_some'] at h
    injection h with h
    subst h
    intro n hn
    obtain ⟨e, he, hne⟩ := List.mem_map.mp hn
    have hes : e ∈ entries := by
      have h1 : e ∈ entries.insertionSort entryLEP :=
        (chainWalk_sublist _ _ _).mem he
      exact (List.perm_insertionSort entryLEP entries).mem_iff.mp h1
    exact ⟨e.1, hne ▸ decoded_entries_wf listing entries hm e hes⟩

/-- Successive canonical-chain names carry strictly ascending
`(number, generation)` pairs. -/
theorem fetch_chain_strict (listing : List FileEntry) (names : List String)
    (h : fetch_bundle_chain listing = some names) :
    names.Pairwise (fun n1 n2 => ∀ i1 i2, extract_bundle_info n1 = some i1 →
      extract_bundle_info n2 = some i2 →
      pairLT (i1.number, i1.generation) (i2.number, i2.generation)) := by
  unfold fetch_bundle_chain at h
  cases hm : listing.mapM decodeEntry with
  | none =>
    rw [hm] at h
    cases h
  | some entries =>
    rw [hm] at h
    simp only [Option.map_some'] at h
    injection h with h
    subst h
    rw [List.pairwise_map]
    have hsorted : (chainWalk (-1) [] (entries.insertionSort entryLEP)).Pairwise entryLEP :=
      (List.sorted_insertionSort entryLEP entries).sublist (chainWalk_sublist _ _ _)
    have hne := chainWalk_pairwise_ne (entries.insertionSort entryLEP) (-1) []
    have hboth := hsorted.and hne
    refine hboth.imp_of_mem (fun {a b} ha hb hab => ?_)
    intro i1 i2 h1 h2
    obtain ⟨hle, hpne⟩ := hab
    have hmema : a ∈ entries := (List.perm_insertionSort entryLEP entries).mem_iff.mp
      ((chainWalk_sublist _ _ _).mem ha)
    have hmemb : b ∈ entries := (List.perm_insertionSort entryLEP entries).mem_iff.mp
      ((chainWalk_sublist _ _ _).mem hb)
    have hwfa := decoded_entries_wf listing entries hm a hmema
    have hwfb := decoded_entries_wf listing entries hm b hmemb
    rw [hwfa] at h1
    rw [hwfb] at h2
    injection h1 with h1
    injection h2 with h2
    subst h1
    subst h2
    have hkey : keyLE (bundle_sort_key a) (bundle_sort_key b) = true := hle
    rw [keyLE_iff] at hkey
    simp only [bundle_sort_key] at hkey
    have hpne' : ¬(a.1.number = b.1.number ∧ a.1.generation = b.1.generation) := by
      rintro ⟨hx, hy⟩
      exact hpne (by rw [hx, hy])
    unfold pairLT
    rcases hkey with h | ⟨hq, h⟩
    · exact Or.inl h
    · rcases h with h | ⟨hg, -⟩
      · exact Or.inr ⟨hq, h⟩
      · exact absurd ⟨hq, hg⟩ hpne'

/-! ## The push engine: `command_push` and `check_for_conflict`

`command_push` is embedded as a function of an explicit environment holding
the values its collaborators (git, the store listing, the clock,
`secrets.token_hex`) return.  Any `subprocess`/store failure aborts the
command at the boundary (notification, nonzero exit) with no state write;
`transportOk = false` models such a failure before the upload, and the
post-upload failure points (`check_for_conflict`'s `RuntimeError`, decode
errors) are modelled where they occur. -/

def TARGET_BUNDLE_SIZE : Nat := 50 * 1024

/-- The Local Sync State record (`latest_upload_info`):
`bundle_name`, `included_commit_id`, `required_commit_id`. -/
structure UploadInfo where
  bundle_name : String
  included_commit_id : String
  required_commit_id : Option String
deriving DecidableEq, Repr

/-- `check_for_conflict` as a function of the fresh listing and the just
uploaded name.  Returns (conflict?, garbage-collected object); `none`
models the uncaught `RuntimeError` on an empty chain or a decode failure. -/
def check_for_conflict (listing : List FileEntry) (uploaded_name : String) :
    Option (Bool × Option String) :=
  match fetch_bundle_chain listing with
  | none => none
  | some chain =>
    match chain.reverse with
    | [] => none
    | last :: restRev =>
      if last ≠ uploaded_name then
        some (true, none)
      else
        match restRev with
        | [] => some (false, none)
        | prevName :: _ =>
          match extract_bundle_info uploaded_name, extract_bundle_info prevName with
          | some up, some prev =>
            if prev.number < up.number ∧ prev.is_final_gen = false then
              some (true, none)
            else if prev.number = up.number ∧ prev.generation < up.generation ∧
                prev.is_final_gen = true then
              some (true, none)
            else if prev.is_final_gen = false then
              some (false, some prevName)
            else
              some (false, none)
          | _, _ => none

inductive PushResult
  | upToDate
  | ok
  | conflictErr
  | fatalErr
deriving DecidableEq, Repr

/-- Observable effects of one `command_push` run: the Local Sync State
write, the deletion of the just-uploaded object (conflict path), the
garbage-collection deletion (inside `check_for_conflict`), the uploaded
object, the baseline handed to `create_bundle`, and the result. -/
structure PushOutcome where
  written : Option UploadInfo
  deletedOwn : Option String
  deletedGC : Option String
  uploaded : Option String
  baseline : Option (Option String)
  result : PushResult
deriving DecidableEq, Repr

structure PushEnv where
  currentCommit : String
  localState : Option UploadInfo
  bundleSize : Nat
  timestamp : Int
  randomStr : String
  instanceName : String
  freshListing : List FileEntry
  transportOk : Bool
deriving Repr

/-- The shared tail of both `command_push` branches: name, encrypt, upload,
verify, write state. -/
def push_upload (env : PushEnv) (no gen : Int) (baseline newRequired : Option String) :
    PushOutcome :=
  match make_bundle_name env.instanceName no gen
      (decide (env.bundleSize > TARGET_BUNDLE_SIZE)) env.timestamp env.randomStr with
  | none => ⟨none, none, none, none, some baseline, .fatalErr⟩
  | some name =>
    match check_for_conflict env.freshListing (name ++ ".enc") with
    | none => ⟨none, none, none, some (name ++ ".enc"), some baseline, .fatalErr⟩
    | some (true, _) => ⟨none, some (name ++ ".enc"), none, some (name ++ ".enc"),
        some baseline, .conflictErr⟩
    | some (false, gc) =>
      ⟨some ⟨name ++ ".enc", env.currentCommit, newRequired⟩, none, gc,
        some (name ++ ".enc"), some baseline, .ok⟩

/-- `command_push` from the source. -/
def command_push_model (env : PushEnv) : PushOutcome :=
  if env.transportOk then
    match env.localState with
    | none => push_upload env (0 + 1) 1 none none
    | some info =>
      match extract_bundle_info info.bundle_name with
      | none => ⟨none, none, none, none, none, .fatalErr⟩
      | some lb =>
        if info.included_commit_id = env.currentCommit then
          ⟨none, none, none, none, none, .upToDate⟩
        else if lb.is_final_gen then
          push_upload env (lb.number + 1) 1 (some info.included_commit_id)
            (some info.included_commit_id)
        else
          push_upload env lb.number (lb.generation + 1) info.required_commit_id
            info.required_commit_id
  else ⟨none, none, none, none, none, .fatalErr⟩

theorem extract_of_split9 (s : List Char) (p0 p1 p2 p3 p4 p5 p6 p7 p8 : List Char)
    (hs : splitDot s = [p0, p1, p2, p3, p4, p5, p6, p7, p8]) (n g t : Int)
    (hn : parseInt p0 = some n) (hg : parseInt p2 = some g) (ht : parseInt p5 = some t) :
    extract_bundle_chars s = some ⟨n, g, ⟨p4⟩, t, p3 == ['f'], ⟨p6⟩⟩ := by
  unfold extract_bundle_chars
  rw [hs]
  simp [hn, hg, ht]

/-- Appending `".enc"` to a well-formed bundle name leaves fields 0–6
unchanged, so the stored (encrypted) name decodes to the same identifier. -/
theorem extract_enc (inst nonce : String) (no gen ts : Int) (fin : Bool) (name : String)
    (hinst : '.' ∉ inst.data) (hnonce : '.' ∉ nonce.data)
    (hmk : make_bundle_name inst no gen fin ts nonce = some name) :
    extract_bundle_info (name ++ ".enc")
      = some ⟨no, gen, inst, ts, fin, nonce⟩ := by
  unfold make_bundle_name at hmk
  rw [if_neg hinst] at hmk
  injection hmk with hmk
  subst hmk
  have hflag : (if fin then 'f' else '_') ≠ '.' := by cases fin <;> decide
  show extract_bundle_chars _ = _
  have hdata : ((⟨padInt 4 no ++ '.' ::
      ('_' :: '.' ::
      (padInt 3 gen ++ '.' ::
      ((if fin then 'f' else '_') :: '.' ::
      (inst.data ++ '.' ::
      (intToChars ts ++ '.' ::
      (nonce.data ++ '.' ::
      ['b', 'u', 'n', 'd', 'l', 'e']))))))⟩ : String) ++ ".enc").data
      = padInt 4 no ++ '.' ::
      ('_' :: '.' ::
      (padInt 3 gen ++ '.' ::
      ((if fin then 'f' else '_') :: '.' ::
      (inst.data ++ '.' ::
      (intToChars ts ++ '.' ::
      (nonce.data ++ '.' ::
      (['b', 'u', 'n', 'd', 'l', 'e'] ++ '.' :: ['e', 'n', 'c']))))))) := by
    rw [String.data_append]
    show (padInt 4 no ++ _) ++ ('.' :: ['e', 'n', 'c']) = _
    simp only [List.append_assoc, List.cons_append, List.nil_append]
  have hext := congrArg extract_bundle_chars hdata
  rw [hext]
  have hsplit : splitDot (padInt 4 no ++ '.' ::
      ('_' :: '.' ::
      (padInt 3 gen ++ '.' ::
      ((if fin then 'f' else '_') :: '.' ::
      (inst.data ++ '.' ::
      (intToChars ts ++ '.' ::
      (nonce.data ++ '.' ::
      (['b', 'u', 'n', 'd', 'l', 'e'] ++ '.' :: ['e', 'n', 'c']))))))))
      = [padInt 4 no, ['_'], padInt 3 gen, [if fin then 'f' else '_'], inst.data,
         intToChars ts, nonce.data, ['b', 'u', 'n', 'd', 'l', 'e'], ['e', 'n', 'c']] := by
    rw [splitDot_append _ _ (padInt_no_dot 4 no),
      splitDot_cons_single '_' _ (by decide),
      splitDot_append _ _ (padInt_no_dot 3 gen),
      splitDot_cons_single _ _ hflag,
      splitDot_append _ _ hinst,
      splitDot_append _ _ (intToChars_no_dot ts),
      splitDot_append _ _ hnonce,
      splitDot_append _ _ (by decide),
      splitDot_no_dot _ (by decide)]
  rw [extract_of_split9 _ _ _ _ _ _ _ _ _ _ hsplit no gen ts
    (parseInt_padInt 4 no) (parseInt_padInt 3 gen) (parseInt_intToChars ts)]
  have hfin : (([if fin then 'f' else '_'] : List Char) == ['f']) = fin := by
    cases fin <;> decide
  rw [hfin]

/-! ### Case analysis on a push run -/

theorem push_upload_some (env : PushEnv) (no gen : Int) (b r : Option String) (name : String)
    (hmk : make_bundle_name env.instanceName no gen
      (decide (env.bundleSize > TARGET_BUNDLE_SIZE)) env.timestamp env.randomStr = some name) :
    push_upload env no gen b r
      = match check_for_conflict env.freshListing (name ++ ".enc") with
        | none => ⟨none, none, none, some (name ++ ".enc"), some b, .fatalErr⟩
        | some (true, _) => ⟨none, some (name ++ ".enc"), none, some (name ++ ".enc"),
            some b, .conflictErr⟩
        | some (false, gc) => ⟨some ⟨name ++ ".enc", env.currentCommit, r⟩, none, gc,
            some (name ++ ".enc"), some b, .ok⟩ := by
  unfold push_upload
  rw [hmk]

theorem push_upload_cases (env : PushEnv) (no gen : Int) (b r : Option String) :
    (make_bundle_name env.instanceName no gen
        (decide (env.bundleSize > TARGET_BUNDLE_SIZE)) env.timestamp env.randomStr = none ∧
      push_upload env no gen b r = ⟨none, none, none, none, some b, .fatalErr⟩) ∨
    (∃ name, make_bundle_name env.instanceName no gen
        (decide (env.bundleSize > TARGET_BUNDLE_SIZE)) env.timestamp env.randomStr = some name ∧
      ((check_for_conflict env.freshListing (name ++ ".enc") = none ∧
          push_upload env no gen b r
            = ⟨none, none, none, some (name ++ ".enc"), some b, .fatalErr⟩) ∨
        (∃ x, check_for_conflict env.freshListing (name ++ ".enc") = some (true, x) ∧
          push_upload env no gen b r
            = ⟨none, some (name ++ ".enc"), none, some (name ++ ".enc"), some b,
                .conflictErr⟩) ∨
        (∃ gc, check_for_conflict env.freshListing (name ++ ".enc") = some (false, gc) ∧
          push_upload env no gen b r
            = ⟨some ⟨name ++ ".enc", env.currentCommit, r⟩, none, gc,
                some (name ++ ".enc"), some b, .ok⟩))) := by
  cases hmk : make_bundle_name env.instanceName no gen
      (decide (env.bundleSize > TARGET_BUNDLE_SIZE)) env.timestamp env.randomStr with
  | none =>
    refine Or.inl ⟨rfl, ?_⟩
    unfold push_upload
    rw [hmk]
  | some name =>
    refine Or.inr ⟨name, rfl, ?_⟩
    rw [push_upload_some env no gen b r name hmk]
    cases hck : check_for_conflict env.freshListing (name ++ ".enc") with
    | none => exact Or.inl ⟨rfl, rfl⟩
    | some pr =>
      rcases pr with ⟨fl, gc⟩
      cases fl with
      | true => exact Or.inr (Or.inl ⟨gc, rfl, rfl⟩)
      | false => exact Or.inr (Or.inr ⟨gc, rfl, rfl⟩)

theorem command_push_no_state (env : PushEnv) (ht : env.transportOk = true)
    (hls : env.localState = none) :
    command_push_model env = push_upload env (0 + 1) 1 none none := by
  unfold command_push_model
  rw [if_pos ht, hls]

theorem command_push_some_state (env : PushEnv) (info : UploadInfo)
    (ht : env.transportOk = true) (hls : env.localState = some info) :
    command_push_model env
      = match extract_bundle_info info.bundle_name with
        | none => ⟨none, none, none, none, none, .fatalErr⟩
        | some lb =>
          if info.included_commit_id = env.currentCommit then
            ⟨none, none, none, none, none, .upToDate⟩
          else if lb.is_final_gen then
            push_upload env (lb.number + 1) 1 (some info.included_commit_id)
              (some info.included_commit_id)
          else
            push_upload env lb.number (lb.generation + 1) info.required_commit_id
              info.required_commit_id := by
  unfold command_push_model
  rw [if_pos ht, hls]

theorem command_push_model_cases (env : PushEnv) :
    command_push_model env = ⟨none, none, none, none, none, .fatalErr⟩ ∨
    command_push_model env = ⟨none, none, none, none, none, .upToDate⟩ ∨
    (∃ no gen b r, command_push_model env = push_upload env no gen b r) := by
  by_cases ht : env.transportOk = true
  · cases hls : env.localState with
    | none => exact Or.inr (Or.inr ⟨0 + 1, 1, none, none, command_push_no_state env ht hls⟩)
    | some info =>
      rw [command_push_some_state env info ht hls]
      split
      · exact Or.inl rfl
      · next lb hx =>
        by_cases heq : info.included_commit_id = env.currentCommit
        · rw [if_pos heq]
          exact Or.inr (Or.inl rfl)
        · rw [if_neg heq]
          cases hf : lb.is_final_gen with
          | true =>
            rw [if_pos rfl]
            exact Or.inr (Or.inr ⟨lb.number + 1, 1, _, _, rfl⟩)
          | false =>
            rw [if_neg (by simp)]
            exact Or.inr (Or.inr ⟨lb.number, lb.generation + 1, _, _, rfl⟩)
  · refine Or.inl ?_
    unfold command_push_model
    rw [if_neg ht]

theorem push_upload_result_fatal_written (env : PushEnv) (no gen : Int) (b r : Option String)
    (h : (push_upload env no gen b r).result = .fatalErr) :
    (push_upload env no gen b r).written = none := by
  rcases push_upload_cases env no gen b r with ⟨-, heq⟩ | ⟨name, -, hc | hc | hc⟩
  · rw [heq]
  · rw [hc.2]
  · obtain ⟨x, -, heq⟩ := hc
    rw [heq] at h
    cases h
  · obtain ⟨gc, -, heq⟩ := hc
    rw [heq] at h
    cases h

theorem command_push_decoded (env : PushEnv) (info : UploadInfo) (lb : BundleInfo)
    (ht : env.transportOk = true) (hls : env.localState = some info)
    (hx : extract_bundle_info info.bundle_name = some lb) :
    command_push_model env
      = if info.included_commit_id = env.currentCommit then
          ⟨none, none, none, none, none, .upToDate⟩
        else if lb.is_final_gen then
          push_upload env (lb.number + 1) 1 (some info.included_commit_id)
            (some info.included_commit_id)
        else
          push_upload env lb.number (lb.generation + 1) info.required_commit_id
            info.required_commit_id := by
  rw [command_push_some_state env info ht hls, hx]

theorem make_bundle_name_some (inst : String) (no gen ts : Int) (fin : Bool) (nonce : String)
    (hdot : '.' ∉ inst.data) :
    ∃ name, make_bundle_name inst no gen fin ts nonce = some name := by
  unfold make_bundle_name
  rw [if_neg hdot]
  exact ⟨_, rfl⟩

theorem push_upload_uploaded (env : PushEnv) (no gen : Int) (b r : Option String)
    (name : String)
    (hmk : make_bundle_name env.instanceName no gen
      (decide (env.bundleSize > TARGET_BUNDLE_SIZE)) env.timestamp env.randomStr = some name) :
    (push_upload env no gen b r).uploaded = some (name ++ ".enc") ∧
    (push_upload env no gen b r).baseline = some b := by
  rw [push_upload_some env no gen b r name hmk]
  cases hck : check_for_conflict env.freshListing (name ++ ".enc") with
  | none => exact ⟨rfl, rfl⟩
  | some pr =>
    rcases pr with ⟨fl, gc⟩
    cases fl
    · exact ⟨rfl, rfl⟩
    · exact ⟨rfl, rfl⟩

theorem check_for_conflict_some_chain (listing : List FileEntry) (n : String)
    (chain : List String) (hc : fetch_bundle_chain listing = some chain) :
    check_for_conflict listing n
      = match chain.reverse with
        | [] => none
        | last :: restRev =>
          if last ≠ n then some (true, none)
          else match restRev with
            | [] => some (false, none)
            | prevName :: _ =>
              match extract_bundle_info n, extract_bundle_info prevName with
              | some up, some prev =>
                if prev.number < up.number ∧ prev.is_final_gen = false then some (true, none)
                else if prev.number = up.number ∧ prev.generation < up.generation ∧
                    prev.is_final_gen = true then some (true, none)
                else if prev.is_final_gen = false then some (false, some prevName)
                else some (false, none)
              | _, _ => none := by
  unfold check_for_conflict
  rw [hc]

theorem check_for_conflict_of_last_ne (listing : List FileEntry) (n : String)
    (chain : List String) (last : String) (rest : List String)
    (hc : fetch_bundle_chain listing = some chain)
    (hrev : chain.reverse = last :: rest) (hne : last ≠ n) :
    check_for_conflict listing n = some (true, none) := by
  rw [check_for_conflict_some_chain listing n chain hc, hrev]
  show (if last ≠ n then some (true, none) else _) = some (true, none)
  rw [if_pos hne]

theorem check_for_conflict_single (listing : List FileEntry) (n : String)
    (chain : List String) (hc : fetch_bundle_chain listing = some chain)
    (hrev : chain.reverse = [n]) :
    check_for_conflict listing n = some (false, none) := by
  rw [check_for_conflict_some_chain listing n chain hc, hrev]
  show (if n ≠ n then some (true, none) else _) = some (false, none)
  rw [if_neg (fun h => h rfl)]

theorem check_for_conflict_prev (listing : List FileEntry) (n : String)
    (chain : List String) (prevName : String) (rest' : List String)
    (hc : fetch_bundle_chain listing = some chain)
    (hrev : chain.reverse = n :: prevName :: rest') :
    check_for_conflict listing n
      = match extract_bundle_info n, extract_bundle_info prevName with
        | some up, some prev =>
          if prev.number < up.number ∧ prev.is_final_gen = false then some (true, none)
          else if prev.number = up.number ∧ prev.generation < up.generation ∧
              prev.is_final_gen = true then some (true, none)
          else if prev.is_final_gen = false then some (false, some prevName)
          else some (false, none)
        | _, _ => none := by
  rw [check_for_conflict_some_chain listing n chain hc, hrev]
  show (if n ≠ n then some (true, none) else _) = _
  rw [if_neg (fun h => h rfl)]

/-! ### C9: push is a no-op when already up to date -/

/-- **C9.**  When the current head commit equals the recorded
`included_commit_id`, push returns up-to-date: nothing is uploaded, nothing
is deleted, nothing is written.  Consequently a second push right after a
successful one (no new commits, so the head still equals the state's
`included_commit_id`) is a no-op. -/
theorem C9_push_up_to_date (env : PushEnv) :
    (∀ (info : UploadInfo) (lb : BundleInfo),
      env.transportOk = true →
      env.localState = some info →
      extract_bundle_info info.bundle_name = some lb →
      info.included_commit_id = env.currentCommit →
      command_push_model env = ⟨none, none, none, none, none, .upToDate⟩) ∧
    (∀ st : UploadInfo,
      env.transportOk = true →
      env.instanceName.data.all isWordChar = true →
      '.' ∉ env.randomStr.data →
      (command_push_model env).result = .ok →
      (command_push_model env).written = some st →
      command_push_model {env with localState := some st}
        = ⟨none, none, none, none, none, .upToDate⟩) := by
  constructor
  · intro info lb ht hls hx heq
    rw [command_push_decoded env info lb ht hls hx, if_pos heq]
  · intro st ht hinst hrand hok hwr
    have hdot : '.' ∉ env.instanceName.data := by
      intro hm
      rw [List.all_eq_true] at hinst
      exact isWordChar_ne_dot _ (hinst _ hm) rfl
    rcases command_push_model_cases env with hcase | hcase | ⟨no, gen, b, r, hcase⟩
    · rw [hcase] at hok; cases hok
    · rw [hcase] at hok; cases hok
    · rcases push_upload_cases env no gen b r with ⟨-, heq⟩ | ⟨name, hmk, hc | hc | hc⟩
      · rw [hcase, heq] at hok; cases hok
      · rw [hcase, hc.2] at hok; cases hok
      · obtain ⟨x, -, heq⟩ := hc
        rw [hcase, heq] at hok; cases hok
      · obtain ⟨gc, -, heq⟩ := hc
        rw [hcase, heq] at hwr
        have hst : st = ⟨name ++ ".enc", env.currentCommit, r⟩ := by
          have hwr' : some (⟨name ++ ".enc", env.currentCommit, r⟩ : UploadInfo) = some st := hwr
          injection hwr' with hwr'
          exact hwr'.symm
        have hx2 : extract_bundle_info st.bundle_name
            = some ⟨no, gen, env.instanceName, env.timestamp,
                decide (env.bundleSize > TARGET_BUNDLE_SIZE), env.randomStr⟩ := by
          rw [hst]
          exact extract_enc env.instanceName env.randomStr no gen env.timestamp _ name
            hdot hrand hmk
        have heq2 : st.included_commit_id
            = ({env with localState := some st} : PushEnv).currentCommit := by
          rw [hst]
        exact (command_push_decoded {env with localState := some st} st _ ht rfl hx2).trans
          (if_pos heq2)

/-! ### C2: post-upload conflict detection -/

/-- **C2.**  If a push uploads object `n` but the canonical chain rebuilt
from the fresh listing does not end in `n`, the push deletes its own upload,
fails with the distinct conflict outcome (pull-and-retry), and the Local
Sync State is not written; a transport-level failure likewise never writes
the Local Sync State. -/
theorem C2_conflict_detection (env : PushEnv) :
    (∀ (n last : String) (chain : List String),
      (command_push_model env).uploaded = some n →
      fetch_bundle_chain env.freshListing = some chain →
      chain.getLast? = some last →
      last ≠ n →
      (command_push_model env).result = .conflictErr ∧
        (command_push_model env).deletedOwn = some n ∧
        (command_push_model env).written = none) ∧
    ((command_push_model env).result = .fatalErr →
      (command_push_model env).written = none) := by
  constructor
  · intro n last chain hup hc hlast hne
    have hrevex : ∃ rest, chain.reverse = last :: rest := by
      have h1 : chain.reverse.head? = some last := by
        rw [List.head?_reverse]
        exact hlast
      cases hr : chain.reverse with
      | nil => rw [hr] at h1; cases h1
      | cons x xs =>
        rw [hr] at h1
        injection h1 with h1
        exact ⟨xs, by rw [h1]⟩
    obtain ⟨rest, hrev⟩ := hrevex
    have hck : check_for_conflict env.freshListing n = some (true, none) :=
      check_for_conflict_of_last_ne env.freshListing n chain last rest hc hrev hne
    rcases command_push_model_cases env with hcase | hcase | ⟨no, gen, b, r, hcase⟩
    · rw [hcase] at hup; cases hup
    · rw [hcase] at hup; cases hup
    · rcases push_upload_cases env no gen b r with ⟨-, heq⟩ | ⟨name, hmk, hcc | hcc | hcc⟩
      · rw [hcase, heq] at hup; cases hup
      · obtain ⟨hck', heq⟩ := hcc
        rw [hcase, heq] at hup
        have hup' : some (name ++ ".enc") = some n := hup
        injection hup' with hup'
        rw [hup'] at hck'
        rw [hck] at hck'
        cases hck'
      · obtain ⟨x, hck', heq⟩ := hcc
        rw [hcase, heq] at hup ⊢
        have hup' : some (name ++ ".enc") = some n := hup
        injection hup' with hup'
        rw [hup']
        exact ⟨rfl, rfl, rfl⟩
      · obtain ⟨gc, hck', heq⟩ := hcc
        rw [hcase, heq] at hup
        have hup' : some (name ++ ".enc") = some n := hup
        injection hup' with hup'
        rw [hup'] at hck'
        rw [hck] at hck'
        simp at hck'
  · intro hres
    rcases command_push_model_cases env with hcase | hcase | ⟨no, gen, b, r, hcase⟩
    · rw [hcase]
    · rw [hcase] at hres; cases hres
    · rw [hcase] at hres ⊢
      exact push_upload_result_fatal_written env no gen b r hres

/-! ### C3: extend vs amend -/

/-- **C3.**  A push that is not up to date either EXTENDs — no local state,
or the last-known link was final: the new link sits at position
`number + 1` with generation 1 and the delta baseline handed to
`create_bundle` is the recorded `included_commit_id` (unset without local
state) — or AMENDs: same position, generation + 1, baseline the recorded
`required_commit_id`. -/
theorem C3_extend_amend (env : PushEnv) (ht : env.transportOk = true)
    (hinst : env.instanceName.data.all isWordChar = true)
    (hrand : '.' ∉ env.randomStr.data) :
    (env.localState = none →
      (command_push_model env).baseline = some none ∧
      ∃ encName, (command_push_model env).uploaded = some encName ∧
        extract_bundle_info encName
          = some ⟨1, 1, env.instanceName, env.timestamp,
              decide (env.bundleSize > TARGET_BUNDLE_SIZE), env.randomStr⟩) ∧
    (∀ (info : UploadInfo) (lb : BundleInfo),
      env.localState = some info →
      extract_bundle_info info.bundle_name = some lb →
      info.included_commit_id ≠ env.currentCommit →
      (lb.is_final_gen = true →
        (command_push_model env).baseline = some (some info.included_commit_id) ∧
        ∃ encName, (command_push_model env).uploaded = some encName ∧
          extract_bundle_info encName
            = some ⟨lb.number + 1, 1, env.instanceName, env.timestamp,
                decide (env.bundleSize > TARGET_BUNDLE_SIZE), env.randomStr⟩) ∧
      (lb.is_final_gen = false →
        (command_push_model env).baseline = some info.required_commit_id ∧
        ∃ encName, (command_push_model env).uploaded = some encName ∧
          extract_bundle_info encName
            = some ⟨lb.number, lb.generation + 1, env.instanceName, env.timestamp,
                decide (env.bundleSize > TARGET_BUNDLE_SIZE), env.randomStr⟩)) := by
  have hdot : '.' ∉ env.instanceName.data := by
    intro hm
    rw [List.all_eq_true] at hinst
    exact isWordChar_ne_dot _ (hinst _ hm) rfl
  constructor
  · intro hls
    rw [command_push_no_state env ht hls]
    obtain ⟨name, hmk⟩ := make_bundle_name_some env.instanceName (0 + 1) 1 env.timestamp
      (decide (env.bundleSize > TARGET_BUNDLE_SIZE)) env.randomStr hdot
    obtain ⟨hu, hb⟩ := push_upload_uploaded env (0 + 1) 1 none none name hmk
    exact ⟨hb, name ++ ".enc", hu,
      extract_enc env.instanceName env.randomStr (0 + 1) 1 env.timestamp _ name hdot hrand hmk⟩
  · intro info lb hls hx hneq
    constructor
    · intro hfin
      rw [command_push_decoded env info lb ht hls hx, if_neg hneq, hfin, if_pos rfl]
      obtain ⟨name, hmk⟩ := make_bundle_name_some env.instanceName (lb.number + 1) 1
        env.timestamp (decide (env.bundleSize > TARGET_BUNDLE_SIZE)) env.randomStr hdot
      obtain ⟨hu, hb⟩ := push_upload_uploaded env (lb.number + 1) 1 (some info.included_commit_id)
        (some info.included_commit_id) name hmk
      exact ⟨hb, name ++ ".enc", hu,
        extract_enc env.instanceName env.randomStr (lb.number + 1) 1 env.timestamp _ name
          hdot hrand hmk⟩
    · intro hfin
      rw [command_push_decoded env info lb ht hls hx, if_neg hneq, hfin,
        if_neg (by simp)]
      obtain ⟨name, hmk⟩ := make_bundle_name_some env.instanceName lb.number (lb.generation + 1)
        env.timestamp (decide (env.bundleSize > TARGET_BUNDLE_SIZE)) env.randomStr hdot
      obtain ⟨hu, hb⟩ := push_upload_uploaded env lb.number (lb.generation + 1)
        info.required_commit_id info.required_commit_id name hmk
      exact ⟨hb, name ++ ".enc", hu,
        extract_enc env.instanceName env.randomStr lb.number (lb.generation + 1) env.timestamp
          _ name hdot hrand hmk⟩

/-! ### C7: a successful push deletes only the superseded previous generation -/

/-- **C7.**  On a successful (non-conflicting) push the just-uploaded object
is not deleted, and the only deletion of a pre-existing object that can
happen is the garbage collection inside `check_for_conflict`: the
second-to-last canonical entry, and only when it is a non-final generation
at the same position as, and with a lower generation than, the uploaded
link — i.e. an older generation this upload supersedes.  Final links and
links at other positions are never deleted. -/
theorem C7_gc_only_superseded (env : PushEnv)
    (hok : (command_push_model env).result = .ok) :
    (command_push_model env).deletedOwn = none ∧
    ∀ del, (command_push_model env).deletedGC = some del →
      ∃ chain rest n up prev,
        fetch_bundle_chain env.freshListing = some chain ∧
        (command_push_model env).uploaded = some n ∧
        chain.reverse = n :: del :: rest ∧
        extract_bundle_info del = some prev ∧
        extract_bundle_info n = some up ∧
        prev.is_final_gen = false ∧
        prev.number = up.number ∧
        prev.generation < up.generation := by
  rcases command_push_model_cases env with hcase | hcase | ⟨no, gen, b, r, hcase⟩
  · rw [hcase] at hok; cases hok
  · rw [hcase] at hok; cases hok
  · rcases push_upload_cases env no gen b r with ⟨-, heq⟩ | ⟨name, hmk, hcc | hcc | hcc⟩
    · rw [hcase, heq] at hok; cases hok
    · rw [hcase, hcc.2] at hok; cases hok
    · obtain ⟨x, -, heq⟩ := hcc
      rw [hcase, heq] at hok; cases hok
    · obtain ⟨gc, hck, heq⟩ := hcc
      rw [hcase, heq]
      refine ⟨rfl, fun del hdel => ?_⟩
      have hgcdel : gc = some del := hdel
      cases hchain : fetch_bundle_chain env.freshListing with
      | none =>
        unfold check_for_conflict at hck
        rw [hchain] at hck
        exact Option.noConfusion hck
      | some chain =>
        cases hrev : chain.reverse with
        | nil =>
          rw [check_for_conflict_some_chain env.freshListing _ chain hchain, hrev] at hck
          exact Option.noConfusion hck
        | cons last restRev =>
          by_cases hlast : last ≠ name ++ ".enc"
          · rw [check_for_conflict_of_last_ne env.freshListing _ chain last restRev
              hchain hrev hlast] at hck
            simp at hck
          · push_neg at hlast
            subst hlast
            cases hrest : restRev with
            | nil =>
              rw [hrest] at hrev
              rw [check_for_conflict_single env.freshListing _ chain hchain hrev] at hck
              have hgc : (none : Option String) = gc := by
                injection hck with h4
                exact congrArg Prod.snd h4
              rw [← hgc] at hgcdel
              cases hgcdel
            | cons prevName rest2 =>
              rw [hrest] at hrev
              rw [check_for_conflict_prev env.freshListing _ chain prevName rest2
                hchain hrev] at hck
              cases hup : extract_bundle_info (name ++ ".enc") with
              | none =>
                rw [hup] at hck
                exact Option.noConfusion hck
              | some up =>
                cases hprev : extract_bundle_info prevName with
                | none =>
                  rw [hup, hprev] at hck
                  exact Option.noConfusion hck
                | some prev =>
                  rw [hup, hprev] at hck
                  have hck3 : (if prev.number < up.number ∧ prev.is_final_gen = false then
                        (some (true, none) : Option (Bool × Option String))
                      else if prev.number = up.number ∧ prev.generation < up.generation ∧
                          prev.is_final_gen = true then some (true, none)
                      else if prev.is_final_gen = false then some (false, some prevName)
                      else some (false, none)) = some (false, gc) := hck
                  by_cases h1 : prev.number < up.number ∧ prev.is_final_gen = false
                  · rw [if_pos h1] at hck3
                    simp at hck3
                  · rw [if_neg h1] at hck3
                    by_cases h2 : prev.number = up.number ∧ prev.generation < up.generation ∧
                        prev.is_final_gen = true
                    · rw [if_pos h2] at hck3
                      simp at hck3
                    · rw [if_neg h2] at hck3
                      by_cases h3 : prev.is_final_gen = false
                      · rw [if_pos h3] at hck3
                        have hgc : some prevName = gc := by
                          injection hck3 with h4
                          exact congrArg Prod.snd h4
                        have hdelprev : del = prevName := by
                          rw [← hgc] at hgcdel
                          injection hgcdel with h5
                          exact h5.symm
                        subst hdelprev
                        have hchain_eq : chain = rest2.reverse ++ del :: (name ++ ".enc") :: [] := by
                          have h6 : chain = chain.reverse.reverse :=
                            (List.reverse_reverse chain).symm
                          rw [h6, hrev]
                          rw [List.reverse_cons, List.reverse_cons, List.append_assoc]
                          rfl
                        have hsub : List.Sublist (del :: (name ++ ".enc") :: []) chain := by
                          rw [hchain_eq]
                          exact List.sublist_append_right _ _
                        have hpair :=
                          (fetch_chain_strict env.freshListing chain hchain).sublist hsub
                        have hrel := (List.pairwise_cons.mp hpair).1 (name ++ ".enc")
                          (List.mem_singleton.mpr rfl)
                        have hlt := hrel prev up hprev hup
                        unfold pairLT at hlt
                        have hnum : prev.number = up.number ∧
                            prev.generation < up.generation := by
                          have hnotlt : ¬ prev.number < up.number := fun hl => h1 ⟨hl, h3⟩
                          rcases hlt with hl | ⟨heqn, hgl⟩
                          · exact absurd hl hnotlt
                          · exact ⟨heqn, hgl⟩
                        exact ⟨chain, rest2, name ++ ".enc", up, prev, rfl, rfl, hrev,
                          hprev, hup, h3, hnum.1, hnum.2⟩
                      · rw [if_neg h3] at hck3
                        have hgc : (none : Option String) = gc := by
                          injection hck3 with h4
                          exact congrArg Prod.snd h4
                        rw [← hgc] at hgcdel
                        cases hgcdel

/-! ### Concrete witnesses for the push-engine theorems -/

/-- Witness for C9: an up-to-date push, and a second push right after a
successful one. -/
theorem C9_push_up_to_date_witness :
    command_push_model ⟨"c1", some ⟨"0001._.001.f.dev.5.ab.bundle.enc", "c1", none⟩,
        0, 6, "cd", "dev", [], true⟩
      = ⟨none, none, none, none, none, .upToDate⟩ ∧
    command_push_model {(⟨"c1", none, 0, 6, "cd", "dev",
        [⟨"0001._.001._.dev.6.cd.bundle.enc", 1⟩], true⟩ : PushEnv) with
        localState := some ⟨"0001._.001._.dev.6.cd.bundle.enc", "c1", none⟩}
      = ⟨none, none, none, none, none, .upToDate⟩ :=
  ⟨(C9_push_up_to_date ⟨"c1", some ⟨"0001._.001.f.dev.5.ab.bundle.enc", "c1", none⟩,
      0, 6, "cd", "dev", [], true⟩).1
    ⟨"0001._.001.f.dev.5.ab.bundle.enc", "c1", none⟩ ⟨1, 1, "dev", 5, true, "ab"⟩
    rfl rfl (by decide) rfl,
  (C9_push_up_to_date ⟨"c1", none, 0, 6, "cd", "dev",
      [⟨"0001._.001._.dev.6.cd.bundle.enc", 1⟩], true⟩).2
    ⟨"0001._.001._.dev.6.cd.bundle.enc", "c1", none⟩
    rfl (by decide) (by decide) (by decide) (by decide)⟩

/-- Witness for C2: a push whose fresh chain ends in a different link, and a
transport failure. -/
theorem C2_conflict_detection_witness :
    ((command_push_model ⟨"c2", none, 0, 6, "cd", "dev",
        [⟨"0001._.001._.x.9.zz.bundle", 5⟩], true⟩).result = .conflictErr ∧
      (command_push_model ⟨"c2", none, 0, 6, "cd", "dev",
        [⟨"0001._.001._.x.9.zz.bundle", 5⟩], true⟩).deletedOwn
        = some "0001._.001._.dev.6.cd.bundle.enc" ∧
      (command_push_model ⟨"c2", none, 0, 6, "cd", "dev",
        [⟨"0001._.001._.x.9.zz.bundle", 5⟩], true⟩).written = none) ∧
    (command_push_model ⟨"c", none, 0, 0, "", "", [], false⟩).written = none :=
  ⟨(C2_conflict_detection ⟨"c2", none, 0, 6, "cd", "dev",
      [⟨"0001._.001._.x.9.zz.bundle", 5⟩], true⟩).1
    "0001._.001._.dev.6.cd.bundle.enc" "0001._.001._.x.9.zz.bundle"
    ["0001._.001._.x.9.zz.bundle"] (by decide) (by decide) (by decide) (by decide),
  (C2_conflict_detection ⟨"c", none, 0, 0, "", "", [], false⟩).2 (by decide)⟩

/-- Witness for C3: an EXTEND from empty state and an AMEND over an open
(non-final) position. -/
theorem C3_extend_amend_witness :
    ((command_push_model ⟨"c2", none, 0, 6, "cd", "dev", [], true⟩).baseline = some none ∧
      ∃ encName, (command_push_model ⟨"c2", none, 0, 6, "cd", "dev", [], true⟩).uploaded
          = some encName ∧
        extract_bundle_info encName = some ⟨1, 1, "dev", 6, false, "cd"⟩) ∧
    ((command_push_model ⟨"c2", some ⟨"0002._.003._.dev.5.ab.bundle.enc", "c1", some "c0"⟩,
        0, 6, "cd", "dev", [], true⟩).baseline = some (some "c0") ∧
      ∃ encName, (command_push_model ⟨"c2",
          some ⟨"0002._.003._.dev.5.ab.bundle.enc", "c1", some "c0"⟩,
          0, 6, "cd", "dev", [], true⟩).uploaded = some encName ∧
        extract_bundle_info encName = some ⟨2, 4, "dev", 6, false, "cd"⟩) := by
  constructor
  · exact (C3_extend_amend ⟨"c2", none, 0, 6, "cd", "dev", [], true⟩ rfl
      (by decide) (by decide)).1 rfl
  · exact ((C3_extend_amend ⟨"c2", some ⟨"0002._.003._.dev.5.ab.bundle.enc", "c1", some "c0"⟩,
        0, 6, "cd", "dev", [], true⟩ rfl (by decide) (by decide)).2
      ⟨"0002._.003._.dev.5.ab.bundle.enc", "c1", some "c0"⟩ ⟨2, 3, "dev", 5, false, "ab"⟩
      rfl (by decide) (by decide)).2 rfl

/-- Witness for C7: a successful AMEND push that garbage-collects the
superseded generation. -/
theorem C7_gc_only_superseded_witness :
    (command_push_model ⟨"c2", some ⟨"0001._.001._.dev.5.ab.bundle.enc", "c1", some "c0"⟩,
        0, 6, "cd", "dev",
        [⟨"0001._.001._.dev.5.ab.bundle.enc", 1⟩,
          ⟨"0001._.002._.dev.6.cd.bundle.enc", 2⟩], true⟩).deletedOwn = none ∧
    ∀ del, (command_push_model ⟨"c2",
        some ⟨"0001._.001._.dev.5.ab.bundle.enc", "c1", some "c0"⟩,
        0, 6, "cd", "dev",
        [⟨"0001._.001._.dev.5.ab.bundle.enc", 1⟩,
          ⟨"0001._.002._.dev.6.cd.bundle.enc", 2⟩], true⟩).deletedGC = some del →
      ∃ chain rest n up prev,
        fetch_bundle_chain [⟨"0001._.001._.dev.5.ab.bundle.enc", 1⟩,
            ⟨"0001._.002._.dev.6.cd.bundle.enc", 2⟩] = some chain ∧
        (command_push_model ⟨"c2",
            some ⟨"0001._.001._.dev.5.ab.bundle.enc", "c1", some "c0"⟩,
            0, 6, "cd", "dev",
            [⟨"0001._.001._.dev.5.ab.bundle.enc", 1⟩,
              ⟨"0001._.002._.dev.6.cd.bundle.enc", 2⟩], true⟩).uploaded = some n ∧
        chain.reverse = n :: del :: rest ∧
        extract_bundle_info del = some prev ∧
        extract_bundle_info n = some up ∧
        prev.is_final_gen = false ∧
        prev.number = up.number ∧
        prev.generation < up.generation :=
  C7_gc_only_superseded ⟨"c2", some ⟨"0001._.001._.dev.5.ab.bundle.enc", "c1", some "c0"⟩,
      0, 6, "cd", "dev",
      [⟨"0001._.001._.dev.5.ab.bundle.enc", 1⟩,
        ⟨"0001._.002._.dev.6.cd.bundle.enc", 2⟩], true⟩ (by decide)

/-- Witness for C10 (amended): swapping a tie-free listing leaves the chain
unchanged. -/
theorem C10_chain_listing_order_independent_witness :
    fetch_bundle_chain [⟨"0001._.001.f.a.10.r1.bundle", 1⟩,
        ⟨"0002._.001.f.b.20.r4.bundle", 2⟩]
      = fetch_bundle_chain [⟨"0002._.001.f.b.20.r4.bundle", 2⟩,
          ⟨"0001._.001.f.a.10.r1.bundle", 1⟩] :=
  C10_chain_listing_order_independent
    [⟨"0001._.001.f.a.10.r1.bundle", 1⟩, ⟨"0002._.001.f.b.20.r4.bundle", 2⟩]
    [⟨"0002._.001.f.b.20.r4.bundle", 2⟩, ⟨"0001._.001.f.a.10.r1.bundle", 1⟩]
    (List.Perm.swap _ _ _) (by decide)

/-! ## The pull engine: `command_pull` and `fetch_from_remote`

`command_pull` is embedded as a function of the listing, the Local Sync
State, and a `GitEnv` giving the answers of the git collaborator: each
bundle's master head (`git bundle list-heads`), its required baseline
(`git bundle verify`, `none` for a complete history) and the ancestry
oracle (`git merge-base --is-ancestor`).  The final `git rebase FETCH_HEAD`
/ `git merge FETCH_HEAD` step is recorded as an `Integration` tag chosen by
the `git log` probe (`localHasCommits`). -/

structure GitEnv where
  headOf : String → String
  reqOf : String → Option String
  anc : String → String → Bool

/-- `fetch_from_remote`: download, decrypt, verify, `git fetch`; then
persist the Local Sync State iff the recorded included commit is unset or
an ancestor of the bundle's head.  Returns the bundle head commit and the
state write, if any. -/
def fetch_from_remote (git : GitEnv) (remote_bundle_name : String)
    (latest_included : Option String) : String × Option UploadInfo :=
  (git.headOf remote_bundle_name,
    if latest_included.all (fun c => git.anc c (git.headOf remote_bundle_name)) then
      some ⟨remote_bundle_name, git.headOf remote_bundle_name,
        git.reqOf remote_bundle_name⟩
    else none)

/-- The skip test of the pull loop: `(number, generation)` at or below the
recorded link's. -/
def skipLink (latest_info : Option BundleInfo) (rb : BundleInfo) : Bool :=
  latest_info.any (fun lb => pairLE (rb.number, rb.generation) (lb.number, lb.generation))

structure LoopResult where
  fetched : List String
  writes : List UploadInfo
  counter : Nat
  incFinal : Option String
  ok : Bool
deriving DecidableEq, Repr

/-- The per-link loop of `command_pull`.  `ok = false` models the uncaught
exception on an undecodable chain name; the partial effects up to that
point are kept. -/
def pullLoop (git : GitEnv) (latest_info : Option BundleInfo) :
    Option String → List String → LoopResult
  | inc, [] => ⟨[], [], 0, inc, true⟩
  | inc, n :: rest =>
    match extract_bundle_info n with
    | none => ⟨[], [], 0, inc, false⟩
    | some rb =>
      if skipLink latest_info rb then
        pullLoop git latest_info inc rest
      else
        let step := fetch_from_remote git n inc
        let res := pullLoop git latest_info (some step.1) rest
        ⟨n :: res.fetched, step.2.toList ++ res.writes, res.counter + 1,
          res.incFinal, res.ok⟩

/-- The pull loop interrupted (crash/kill) after applying `k` links: the
`k+1`-st application never happens and neither does the final integration. -/
def pullLoopUpTo (git : GitEnv) (latest_info : Option BundleInfo) :
    Nat → Option String → List String → LoopResult
  | _, inc, [] => ⟨[], [], 0, inc, true⟩
  | k, inc, n :: rest =>
    match extract_bundle_info n with
    | none => ⟨[], [], 0, inc, false⟩
    | some rb =>
      if skipLink latest_info rb then
        pullLoopUpTo git latest_info k inc rest
      else
        match k with
        | 0 => ⟨[], [], 0, inc, false⟩
        | k' + 1 =>
          let step := fetch_from_remote git n inc
          let res := pullLoopUpTo git latest_info k' (some step.1) rest
          ⟨n :: res.fetched, step.2.toList ++ res.writes, res.counter + 1,
            res.incFinal, res.ok⟩

inductive Integration
  | rebase
  | merge
deriving DecidableEq, Repr

structure PullEnv where
  listing : List FileEntry
  localState : Option UploadInfo
  git : GitEnv
  localHasCommits : Bool

structure PullOutcome where
  fetched : List String
  writes : List UploadInfo
  counter : Nat
  integration : Option Integration
  ok : Bool
deriving DecidableEq, Repr

/-- The loop parameters `command_pull` derives from the Local Sync State:
the recorded identifier to skip against (`latest_bundle_info`) and the
initial latest-included commit (`latest_included_commit_id`).  `none`
models the uncaught decode exception. -/
def pullSetup : Option UploadInfo → Option (Option BundleInfo × Option String)
  | none => some (none, none)
  | some info =>
    (extract_bundle_info info.bundle_name).map
      (fun lb => (some lb, some info.included_commit_id))

/-- `command_pull` from the source. -/
def command_pull_model (env : PullEnv) : PullOutcome :=
  match fetch_bundle_chain env.listing with
  | none => ⟨[], [], 0, none, false⟩
  | some chain =>
    match pullSetup env.localState with
    | none => ⟨[], [], 0, none, false⟩
    | some (li, inc0) =>
      let res := pullLoop env.git li inc0 chain
      ⟨res.fetched, res.writes, res.counter,
        if res.ok then some (if env.localHasCommits then .rebase else .merge) else none,
        res.ok⟩

/-- `command_pull` interrupted after `k` applied links. -/
def command_pull_interrupt (k : Nat) (env : PullEnv) : PullOutcome :=
  match fetch_bundle_chain env.listing with
  | none => ⟨[], [], 0, none, false⟩
  | some chain =>
    match pullSetup env.localState with
    | none => ⟨[], [], 0, none, false⟩
    | some (li, inc0) =>
      let res := pullLoopUpTo env.git li k inc0 chain
      ⟨res.fetched, res.writes, res.counter,
        if res.ok then some (if env.localHasCommits then .rebase else .merge) else none,
        res.ok⟩

/-- The `(number, generation)` pair of a decoded identifier. -/
def pairOf (b : BundleInfo) : Int × Int := (b.number, b.generation)

/-- Applying a list of links in order with no skipping: the state writes
produced (in order) and the final in-memory latest-included commit. -/
def applySeq (git : GitEnv) : Option String → List String → List UploadInfo × Option String
  | inc, [] => ([], inc)
  | inc, n :: rest =>
    let step := fetch_from_remote git n inc
    let res := applySeq git (some step.1) rest
    (step.2.toList ++ res.1, res.2)

theorem pullLoop_cons (git : GitEnv) (li : Option BundleInfo) (inc : Option String)
    (n : String) (rest : List String) :
    pullLoop git li inc (n :: rest) =
      match extract_bundle_info n with
      | none => ⟨[], [], 0, inc, false⟩
      | some rb =>
        if skipLink li rb then pullLoop git li inc rest
        else
          let step := fetch_from_remote git n inc
          let res := pullLoop git li (some step.1) rest
          ⟨n :: res.fetched, step.2.toList ++ res.writes, res.counter + 1,
            res.incFinal, res.ok⟩ := rfl

theorem pullLoopUpTo_cons (git : GitEnv) (li : Option BundleInfo) (k : Nat)
    (inc : Option String) (n : String) (rest : List String) :
    pullLoopUpTo git li k inc (n :: rest) =
      match extract_bundle_info n with
      | none => ⟨[], [], 0, inc, false⟩
      | some rb =>
        if skipLink li rb then pullLoopUpTo git li k inc rest
        else
          match k with
          | 0 => ⟨[], [], 0, inc, false⟩
          | k' + 1 =>
            let step := fetch_from_remote git n inc
            let res := pullLoopUpTo git li k' (some step.1) rest
            ⟨n :: res.fetched, step.2.toList ++ res.writes, res.counter + 1,
              res.incFinal, res.ok⟩ := rfl

theorem applySeq_cons (git : GitEnv) (inc : Option String) (n : String)
    (rest : List String) :
    applySeq git inc (n :: rest) =
      ((fetch_from_remote git n inc).2.toList ++
        (applySeq git (some (fetch_from_remote git n inc).1) rest).1,
       (applySeq git (some (fetch_from_remote git n inc).1) rest).2) := rfl

theorem applySeq_append (git : GitEnv) (l1 l2 : List String) :
    ∀ inc : Option String,
    applySeq git inc (l1 ++ l2) =
      ((applySeq git inc l1).1 ++ (applySeq git (applySeq git inc l1).2 l2).1,
        (applySeq git (applySeq git inc l1).2 l2).2) := by
  induction l1 with
  | nil => intro inc; simp [applySeq]
  | cons n rest ih =>
    intro inc
    rw [List.cons_append, applySeq_cons, applySeq_cons, ih]
    simp

theorem applySeq_snd (git : GitEnv) :
    ∀ (l : List String) (inc : Option String),
    (applySeq git inc l).2 =
      match l.getLast? with
      | none => inc
      | some n => some (git.headOf n) := by
  intro l
  induction l with
  | nil => intro inc; rfl
  | cons n rest ih =>
    intro inc
    rw [applySeq_cons]
    cases rest with
    | nil => rfl
    | cons m rest2 =>
      show (applySeq git (some (git.headOf n)) (m :: rest2)).2 = _
      rw [ih]
      rw [List.getLast?_cons_cons]
      cases hg2 : (m :: rest2).getLast? with
      | none => exact absurd hg2 (by simp)
      | some y => rfl

theorem pullLoop_eq_applySeq (git : GitEnv) (li : Option BundleInfo) (g : String → BundleInfo) :
    ∀ (names : List String) (inc : Option String),
    (∀ n ∈ names, extract_bundle_info n = some (g n)) →
    pullLoop git li inc names =
      ⟨names.filter (fun n => !skipLink li (g n)),
        (applySeq git inc (names.filter (fun n => !skipLink li (g n)))).1,
        (names.filter (fun n => !skipLink li (g n))).length,
        (applySeq git inc (names.filter (fun n => !skipLink li (g n)))).2, true⟩ := by
  intro names
  induction names with
  | nil => intro inc _; rfl
  | cons n rest ih =>
    intro inc h
    have hn : extract_bundle_info n = some (g n) := h n (List.mem_cons_self n rest)
    have hrest : ∀ m ∈ rest, extract_bundle_info m = some (g m) :=
      fun m hm => h m (List.mem_cons_of_mem n hm)
    rw [pullLoop_cons, hn]
    cases hs : skipLink li (g n) with
    | true =>
      simp only [if_true, List.filter_cons, hs, Bool.not_true, Bool.false_eq_true,
        if_false]
      exact ih inc hrest
    | false =>
      simp only [if_false, List.filter_cons, hs, Bool.not_false, if_true]
      rw [ih (some (fetch_from_remote git n inc).1) hrest, applySeq_cons]
      rfl

theorem pullLoop_counter (git : GitEnv) (li : Option BundleInfo) :
    ∀ (names : List String) (inc : Option String),
    (pullLoop git li inc names).counter = (pullLoop git li inc names).fetched.length := by
  intro names
  induction names with
  | nil => intro inc; rfl
  | cons n rest ih =>
    intro inc
    rw [pullLoop_cons]
    cases hn : extract_bundle_info n with
    | none => rfl
    | some rb =>
      cases hs : skipLink li rb with
      | true =>
        simp only [hs, if_true]
        exact ih inc
      | false =>
        simp only [hs, Bool.false_eq_true, if_false]
        show (pullLoop git li (some (fetch_from_remote git n inc).1) rest).counter + 1 =
          (pullLoop git li (some (fetch_from_remote git n inc).1) rest).fetched.length + 1
        rw [ih]

theorem pullLoopUpTo_cons_skip (git : GitEnv) (li : Option BundleInfo) (k : Nat)
    (inc : Option String) (n : String) (rest : List String) (rb : BundleInfo)
    (hn : extract_bundle_info n = some rb) (hs : skipLink li rb = true) :
    pullLoopUpTo git li k inc (n :: rest) = pullLoopUpTo git li k inc rest := by
  rw [pullLoopUpTo_cons, hn]
  simp only [hs, if_true]

theorem pullLoopUpTo_cons_zero (git : GitEnv) (li : Option BundleInfo)
    (inc : Option String) (n : String) (rest : List String) (rb : BundleInfo)
    (hn : extract_bundle_info n = some rb) (hs : skipLink li rb = false) :
    pullLoopUpTo git li 0 inc (n :: rest) = ⟨[], [], 0, inc, false⟩ := by
  rw [pullLoopUpTo_cons, hn]
  simp only [hs, Bool.false_eq_true, if_false]

theorem pullLoopUpTo_cons_apply (git : GitEnv) (li : Option BundleInfo) (k : Nat)
    (inc : Option String) (n : String) (rest : List String) (rb : BundleInfo)
    (hn : extract_bundle_info n = some rb) (hs : skipLink li rb = false) :
    pullLoopUpTo git li (k + 1) inc (n :: rest) =
      ⟨n :: (pullLoopUpTo git li k (some (fetch_from_remote git n inc).1) rest).fetched,
        (fetch_from_remote git n inc).2.toList ++
          (pullLoopUpTo git li k (some (fetch_from_remote git n inc).1) rest).writes,
        (pullLoopUpTo git li k (some (fetch_from_remote git n inc).1) rest).counter + 1,
        (pullLoopUpTo git li k (some (fetch_from_remote git n inc).1) rest).incFinal,
        (pullLoopUpTo git li k (some (fetch_from_remote git n inc).1) rest).ok⟩ := by
  rw [pullLoopUpTo_cons, hn]
  simp only [hs, Bool.false_eq_true, if_false]

theorem pullLoopUpTo_spec (git : GitEnv) (li : Option BundleInfo) (g : String → BundleInfo) :
    ∀ (names : List String) (k : Nat) (inc : Option String),
    (∀ n ∈ names, extract_bundle_info n = some (g n)) →
    k ≤ (names.filter (fun n => !skipLink li (g n))).length →
    pullLoopUpTo git li k inc names =
      ⟨(names.filter (fun n => !skipLink li (g n))).take k,
        (applySeq git inc ((names.filter (fun n => !skipLink li (g n))).take k)).1,
        k,
        (applySeq git inc ((names.filter (fun n => !skipLink li (g n))).take k)).2,
        decide ((names.filter (fun n => !skipLink li (g n))).length ≤ k)⟩ := by
  intro names
  induction names with
  | nil =>
    intro k inc _ hk
    simp only [List.filter_nil, List.length_nil, Nat.le_zero] at hk
    subst hk
    rfl
  | cons n rest ih =>
    intro k inc h hk
    have hn : extract_bundle_info n = some (g n) := h n (List.mem_cons_self n rest)
    have hrest : ∀ m ∈ rest, extract_bundle_info m = some (g m) :=
      fun m hm => h m (List.mem_cons_of_mem n hm)
    cases hs : skipLink li (g n) with
    | true =>
      rw [pullLoopUpTo_cons_skip git li k inc n rest (g n) hn hs]
      simp only [List.filter_cons, hs, Bool.not_true, Bool.false_eq_true, if_false]
      rw [List.filter_cons, hs] at hk
      simp only [Bool.not_true, Bool.false_eq_true, if_false] at hk
      exact ih k inc hrest hk
    | false =>
      rw [List.filter_cons, hs] at hk
      simp only [Bool.not_false, if_true, List.length_cons] at hk
      simp only [List.filter_cons, hs, Bool.not_false, if_true]
      cases k with
      | zero =>
        rw [pullLoopUpTo_cons_zero git li inc n rest (g n) hn hs]
        have h0 : ¬ ((rest.filter (fun m => !skipLink li (g m))).length + 1 ≤ 0) := by omega
        simp [h0, applySeq]
      | succ k2 =>
        have hk2 : k2 ≤ (rest.filter (fun m => !skipLink li (g m))).length := by omega
        rw [pullLoopUpTo_cons_apply git li k2 inc n rest (g n) hn hs]
        rw [ih k2 (some (fetch_from_remote git n inc).1) hrest hk2]
        simp only [List.take_succ_cons, applySeq_cons, List.length_cons]
        rw [LoopResult.mk.injEq]
        refine ⟨rfl, rfl, rfl, rfl, ?_⟩
        rw [decide_eq_decide]
        omega

theorem command_pull_model_eq (env : PullEnv) (chain : List String)
    (li : Option BundleInfo) (inc0 : Option String)
    (hc : fetch_bundle_chain env.listing = some chain)
    (hsetup : pullSetup env.localState = some (li, inc0)) :
    command_pull_model env =
      ⟨(pullLoop env.git li inc0 chain).fetched,
        (pullLoop env.git li inc0 chain).writes,
        (pullLoop env.git li inc0 chain).counter,
        if (pullLoop env.git li inc0 chain).ok then
          some (if env.localHasCommits then Integration.rebase else Integration.merge)
        else none,
        (pullLoop env.git li inc0 chain).ok⟩ := by
  unfold command_pull_model
  rw [hc, hsetup]

theorem command_pull_interrupt_eq (k : Nat) (env : PullEnv) (chain : List String)
    (li : Option BundleInfo) (inc0 : Option String)
    (hc : fetch_bundle_chain env.listing = some chain)
    (hsetup : pullSetup env.localState = some (li, inc0)) :
    command_pull_interrupt k env =
      ⟨(pullLoopUpTo env.git li k inc0 chain).fetched,
        (pullLoopUpTo env.git li k inc0 chain).writes,
        (pullLoopUpTo env.git li k inc0 chain).counter,
        if (pullLoopUpTo env.git li k inc0 chain).ok then
          some (if env.localHasCommits then Integration.rebase else Integration.merge)
        else none,
        (pullLoopUpTo env.git li k inc0 chain).ok⟩ := by
  unfold command_pull_interrupt
  rw [hc, hsetup]

theorem skipLink_some (lb rb : BundleInfo) :
    skipLink (some lb) rb = pairLE (pairOf rb) (pairOf lb) := rfl

theorem skipLink_none (rb : BundleInfo) : skipLink none rb = false := rfl

theorem pairLE_refl (a : Int × Int) : pairLE a a = true := by
  rw [pairLE_iff]
  omega

theorem pairLE_false_mono {a b c : Int × Int} (h1 : pairLE a c = false) (h2 : pairLT a b) :
    pairLE b c = false := by
  rw [← Bool.not_eq_true] at h1 ⊢
  rw [pairLE_iff] at h1 ⊢
  unfold pairLT at h2
  omega

/-- On a strictly `(number, generation)`-ascending name list, restarting the
skip filter from the `i`-th applied link keeps exactly the applied links
after it. -/
theorem filter_drop_of_pairwise (g : String → BundleInfo) :
    ∀ (names : List String) (li : Option BundleInfo) (i : Nat) (m : String),
    names.Pairwise (fun x y => pairLT (pairOf (g x)) (pairOf (g y))) →
    (names.filter (fun n => !skipLink li (g n)))[i]? = some m →
    names.filter (fun n => !skipLink (some (g m)) (g n)) =
      (names.filter (fun n => !skipLink li (g n))).drop (i + 1) := by
  intro names
  induction names with
  | nil => intro li i m _ hm; simp at hm
  | cons a rest ih =>
    intro li i m hpw hm
    have ha : ∀ y ∈ rest, pairLT (pairOf (g a)) (pairOf (g y)) :=
      (List.pairwise_cons.mp hpw).1
    have hrest := (List.pairwise_cons.mp hpw).2
    cases hpa : skipLink li (g a) with
    | true =>
      rw [List.filter_cons, hpa] at hm
      simp only [Bool.not_true, Bool.false_eq_true, if_false] at hm
      have hmem : m ∈ rest.filter (fun n => !skipLink li (g n)) :=
        List.getElem?_mem hm
      have hmr : m ∈ rest := (List.mem_filter.mp hmem).1
      have hskipam : skipLink (some (g m)) (g a) = true := by
        rw [skipLink_some]
        exact pairLE_of_pairLT (ha m hmr)
      rw [List.filter_cons, hskipam]
      simp only [Bool.not_true, Bool.false_eq_true, if_false]
      rw [List.filter_cons, hpa]
      simp only [Bool.not_true, Bool.false_eq_true, if_false]
      exact ih li i m hrest hm
    | false =>
      rw [List.filter_cons, hpa] at hm
      simp only [Bool.not_false, if_true] at hm
      cases i with
      | zero =>
        simp only [List.getElem?_cons_zero] at hm
        injection hm with hm
        subst hm
        rw [List.filter_cons, List.filter_cons, hpa]
        simp only [Bool.not_false, if_true]
        have hself : skipLink (some (g a)) (g a) = true := by
          rw [skipLink_some]
          exact pairLE_refl _
        rw [hself]
        simp only [Bool.not_true, Bool.false_eq_true, if_false, List.drop_succ_cons,
          List.drop_zero]
        have h2 : rest.filter (fun n => !skipLink li (g n)) = rest := by
          rw [List.filter_eq_self]
          intro y hy
          cases hli : li with
          | none => rfl
          | some lb =>
            rw [hli] at hpa
            rw [skipLink_some] at hpa ⊢
            rw [pairLE_false_mono hpa (ha y hy)]
            rfl
        have h1 : rest.filter (fun n => !skipLink (some (g a)) (g n)) = rest := by
          rw [List.filter_eq_self]
          intro y hy
          rw [skipLink_some, not_pairLE_of_pairLT (ha y hy)]
          rfl
        rw [h1, h2]
      | succ j =>
        simp only [List.getElem?_cons_succ] at hm
        have hmem : m ∈ rest.filter (fun n => !skipLink li (g n)) :=
          List.getElem?_mem hm
        have hmr : m ∈ rest := (List.mem_filter.mp hmem).1
        have hskipam : skipLink (some (g m)) (g a) = true := by
          rw [skipLink_some]
          exact pairLE_of_pairLT (ha m hmr)
        rw [List.filter_cons, hskipam]
        simp only [Bool.not_true, Bool.false_eq_true, if_false]
        rw [List.filter_cons, hpa]
        simp only [Bool.not_false, if_true, List.drop_succ_cons]
        exact ih li j m hrest hm

/-- C8: after the link loop, a successful pull performs exactly one
integration step — a rebase when the local history already has commits
(`git log` succeeds), otherwise a merge (fast-forward on an empty
history) — and its reported count equals the number of links applied;
zero applied links is a valid success (witnessed on an empty chain). -/
theorem C8_single_integration (env : PullEnv)
    (h : (command_pull_model env).ok = true) :
    (command_pull_model env).integration =
      some (if env.localHasCommits then Integration.rebase else Integration.merge) ∧
    (command_pull_model env).counter = (command_pull_model env).fetched.length := by
  cases hc : fetch_bundle_chain env.listing with
  | none =>
    unfold command_pull_model at h
    rw [hc] at h
    cases h
  | some chain =>
    cases hsetup : pullSetup env.localState with
    | none =>
      unfold command_pull_model at h
      rw [hc, hsetup] at h
      cases h
    | some p =>
      obtain ⟨li, inc0⟩ := p
      rw [command_pull_model_eq env chain li inc0 hc hsetup] at h ⊢
      have h2 : (pullLoop env.git li inc0 chain).ok = true := h
      constructor
      · rw [h2]
        rfl
      · exact pullLoop_counter env.git li chain inc0

def pullEnvW : PullEnv :=
  ⟨[], none, ⟨fun _ => "", fun _ => none, fun _ _ => true⟩, false⟩

theorem C8_single_integration_witness :
    (command_pull_model pullEnvW).ok = true ∧
    ((command_pull_model pullEnvW).integration =
      some (if pullEnvW.localHasCommits then Integration.rebase else Integration.merge) ∧
     (command_pull_model pullEnvW).counter = (command_pull_model pullEnvW).fetched.length) :=
  ⟨by decide, C8_single_integration pullEnvW (by decide)⟩

/-- C4: pull applies exactly the canonical-chain links whose
`(number, generation)` exceeds the recorded link's (all links when no
record exists), in chain order, persisting the Local Sync State per
applied link through `fetch_from_remote`; consequently a pull interrupted
right after applying links `0..i` (where link `i`'s head passed the
unset-or-ancestor check) leaves the state at link `i`, and the restarted
pull applies exactly the remaining links `i+1..n`, so that the
interrupted-plus-restarted pair fetches the same links, performs the same
state writes, and ends with the same integration as one uninterrupted
run. -/
theorem C4_pull_skip_and_resume (env : PullEnv) (chain : List String)
    (li : Option BundleInfo) (inc0 : Option String) (g : String → BundleInfo)
    (applied : List String) (i : Nat) (m : String)
    (hc : fetch_bundle_chain env.listing = some chain)
    (hsetup : pullSetup env.localState = some (li, inc0))
    (hg : ∀ n ∈ chain, extract_bundle_info n = some (g n))
    (happ : applied = chain.filter (fun n => !skipLink li (g n)))
    (hm : applied[i]? = some m)
    (hcond : ((applySeq env.git inc0 (applied.take i)).2).all
      (fun c => env.git.anc c (env.git.headOf m)) = true) :
    (command_pull_model env).ok = true ∧
    (command_pull_model env).fetched = applied ∧
    (command_pull_model env).counter = applied.length ∧
    (command_pull_model env).writes = (applySeq env.git inc0 applied).1 ∧
    (command_pull_interrupt (i + 1) env).fetched = applied.take (i + 1) ∧
    (command_pull_interrupt (i + 1) env).writes.getLast? =
      some ⟨m, env.git.headOf m, env.git.reqOf m⟩ ∧
    (command_pull_model { env with localState := some ⟨m, env.git.headOf m, env.git.reqOf m⟩ }).ok = true ∧
    (command_pull_model { env with localState := some ⟨m, env.git.headOf m, env.git.reqOf m⟩ }).fetched = applied.drop (i + 1) ∧
    (command_pull_interrupt (i + 1) env).fetched ++
      (command_pull_model { env with localState := some ⟨m, env.git.headOf m, env.git.reqOf m⟩ }).fetched =
      (command_pull_model env).fetched ∧
    (command_pull_interrupt (i + 1) env).writes ++
      (command_pull_model { env with localState := some ⟨m, env.git.headOf m, env.git.reqOf m⟩ }).writes =
      (command_pull_model env).writes ∧
    (command_pull_model { env with localState := some ⟨m, env.git.headOf m, env.git.reqOf m⟩ }).integration =
      (command_pull_model env).integration := by
  subst happ
  have hmF : m ∈ chain.filter (fun n => !skipLink li (g n)) := List.getElem?_mem hm
  have hmchain : m ∈ chain := (List.mem_filter.mp hmF).1
  have hi : i < (chain.filter (fun n => !skipLink li (g n))).length := by
    by_contra hlt
    push_neg at hlt
    rw [List.getElem?_eq_none hlt] at hm
    cases hm
  have hfull := pullLoop_eq_applySeq env.git li g chain inc0 hg
  have hme := command_pull_model_eq env chain li inc0 hc hsetup
  have htake : (chain.filter (fun n => !skipLink li (g n))).take (i + 1) =
      (chain.filter (fun n => !skipLink li (g n))).take i ++ [m] := by
    rw [List.take_succ, hm]
    rfl
  have hstep : (fetch_from_remote env.git m
      ((applySeq env.git inc0
        ((chain.filter (fun n => !skipLink li (g n))).take i)).2)).2 =
      some ⟨m, env.git.headOf m, env.git.reqOf m⟩ := by
    unfold fetch_from_remote
    rw [hcond]
    rfl
  have happw : (applySeq env.git inc0
      ((chain.filter (fun n => !skipLink li (g n))).take (i + 1))).1 =
      (applySeq env.git inc0 ((chain.filter (fun n => !skipLink li (g n))).take i)).1 ++
        [⟨m, env.git.headOf m, env.git.reqOf m⟩] := by
    rw [htake, applySeq_append, applySeq_cons, hstep]
    simp [applySeq]
  have hsnd : (applySeq env.git inc0
      ((chain.filter (fun n => !skipLink li (g n))).take (i + 1))).2 =
      some (env.git.headOf m) := by
    rw [applySeq_snd, htake, List.getLast?_concat]
  have hup := pullLoopUpTo_spec env.git li g chain (i + 1) inc0 hg hi
  have hie := command_pull_interrupt_eq (i + 1) env chain li inc0 hc hsetup
  have hsetup2 : pullSetup (some ⟨m, env.git.headOf m, env.git.reqOf m⟩) =
      some (some (g m), some (env.git.headOf m)) := by
    show (extract_bundle_info m).map
      (fun lb => (some lb, some (env.git.headOf m))) = _
    rw [hg m hmchain]
    rfl
  have hpw : chain.Pairwise (fun x y => pairLT (pairOf (g x)) (pairOf (g y))) := by
    have hstrict := fetch_chain_strict env.listing chain hc
    exact hstrict.imp_of_mem (fun {a b} hal hbl hab =>
      hab (g a) (g b) (hg a hal) (hg b hbl))
  have hdrop := filter_drop_of_pairwise g chain li i m hpw hm
  have hme2 : command_pull_model
      { env with localState := some ⟨m, env.git.headOf m, env.git.reqOf m⟩ } =
      ⟨(pullLoop env.git (some (g m)) (some (env.git.headOf m)) chain).fetched,
       (pullLoop env.git (some (g m)) (some (env.git.headOf m)) chain).writes,
       (pullLoop env.git (some (g m)) (some (env.git.headOf m)) chain).counter,
       if (pullLoop env.git (some (g m)) (some (env.git.headOf m)) chain).ok then
         some (if env.localHasCommits then Integration.rebase else Integration.merge)
       else none,
       (pullLoop env.git (some (g m)) (some (env.git.headOf m)) chain).ok⟩ :=
    command_pull_model_eq _ chain (some (g m)) (some (env.git.headOf m)) hc hsetup2
  have hfull2 := pullLoop_eq_applySeq env.git (some (g m)) g chain
    (some (env.git.headOf m)) hg
  rw [hme, hie, hme2, hfull, hfull2, hup]
  refine ⟨rfl, rfl, rfl, rfl, rfl, ?_, rfl, ?_, ?_, ?_, rfl⟩
  · show ((applySeq env.git inc0
        ((chain.filter (fun n => !skipLink li (g n))).take (i + 1))).1).getLast? = _
    rw [happw, List.getLast?_concat]
  · exact hdrop
  · rw [hdrop]
    show (chain.filter (fun n => !skipLink li (g n))).take (i + 1) ++
        (chain.filter (fun n => !skipLink li (g n))).drop (i + 1) =
        chain.filter (fun n => !skipLink li (g n))
    exact List.take_append_drop (i + 1) _
  · rw [hdrop]
    show (applySeq env.git inc0
        ((chain.filter (fun n => !skipLink li (g n))).take (i + 1))).1 ++
      (applySeq env.git (some (env.git.headOf m))
        ((chain.filter (fun n => !skipLink li (g n))).drop (i + 1))).1 =
      (applySeq env.git inc0 (chain.filter (fun n => !skipLink li (g n)))).1
    conv_rhs => rw [← List.take_append_drop (i + 1)
      (chain.filter (fun n => !skipLink li (g n)))]
    rw [applySeq_append, hsnd]

def pullGitW : GitEnv := ⟨fun _ => "c1", fun _ => none, fun _ _ => true⟩

def pullEnvW4 : PullEnv :=
  ⟨[⟨"0001._.001.f.a.10.r1.bundle", 1⟩, ⟨"0002._.001.f.a.11.r2.bundle", 2⟩],
    none, pullGitW, true⟩

def gW : String → BundleInfo := fun n =>
  match extract_bundle_info n with
  | some b => b
  | none => ⟨0, 0, "", 0, false, ""⟩

def appliedW : List String :=
  ["0001._.001.f.a.10.r1.bundle", "0002._.001.f.a.11.r2.bundle"]

def stW : UploadInfo :=
  ⟨"0001._.001.f.a.10.r1.bundle",
    pullEnvW4.git.headOf "0001._.001.f.a.10.r1.bundle",
    pullEnvW4.git.reqOf "0001._.001.f.a.10.r1.bundle"⟩

def pullEnvW4r : PullEnv := { pullEnvW4 with localState := some stW }

theorem C4_pull_skip_and_resume_witness :
    (command_pull_model pullEnvW4).ok = true ∧
    (command_pull_model pullEnvW4).fetched = appliedW ∧
    (command_pull_model pullEnvW4).counter = appliedW.length ∧
    (command_pull_model pullEnvW4).writes = (applySeq pullEnvW4.git none appliedW).1 ∧
    (command_pull_interrupt 1 pullEnvW4).fetched = appliedW.take 1 ∧
    (command_pull_interrupt 1 pullEnvW4).writes.getLast? = some stW ∧
    (command_pull_model pullEnvW4r).ok = true ∧
    (command_pull_model pullEnvW4r).fetched = appliedW.drop 1 ∧
    (command_pull_interrupt 1 pullEnvW4).fetched ++
      (command_pull_model pullEnvW4r).fetched = (command_pull_model pullEnvW4).fetched ∧
    (command_pull_interrupt 1 pullEnvW4).writes ++
      (command_pull_model pullEnvW4r).writes = (command_pull_model pullEnvW4).writes ∧
    (command_pull_model pullEnvW4r).integration = (command_pull_model pullEnvW4).integration :=
  C4_pull_skip_and_resume pullEnvW4
    ["0001._.001.f.a.10.r1.bundle", "0002._.001.f.a.11.r2.bundle"]
    none none gW appliedW 0 "0001._.001.f.a.10.r1.bundle"
    (by decide) rfl (by decide) (by decide) rfl rfl

end SyncRepo
